import Mathlib

set_option maxRecDepth 8000

namespace BufferPool

/-- Modelled from the spec: a disk page is a fixed-size byte container carrying
its own page number (spec section 6); the byte contents are abstracted to a single
natural number. -/
structure Page where
  page_number : Nat
  data : Nat
deriving DecidableEq, Repr

instance : Inhabited Page := ⟨⟨0, 0⟩⟩

/-- Modelled from the spec: the per-frame metadata of struct BufDesc (spec
section 3), whose definition lives in buffer.h which is absent from the sources.
The File handle is represented by `Option Nat`: `some f` is a handle to file
`f`, `none` is a default handle of a frame that never held a file or was
cleared. -/
structure BufDesc where
  frameNo : Nat
  fileId : Option Nat
  pageNo : Nat
  pinCnt : Nat
  dirty : Bool
  refbit : Bool
  valid : Bool
deriving DecidableEq, Repr

instance : Inhabited BufDesc := ⟨⟨0, none, 0, 0, false, false, false⟩⟩

/-- Observable calls made by the buffer manager to the File collaborators. -/
inductive Ev
  | writePageEv (fid pno data : Nat)
  | allocPageEv (fid pno : Nat)
  | deletePageEv (fid pno : Nat)
deriving DecidableEq, Repr

/-- Modelled from the spec: the collective state of the File collaborators
(spec section 6): for each file the next freshly assigned page number, the
on-disk contents, and the trace of calls the buffer manager has made. -/
structure FileSys where
  nextPage : Nat → Nat
  disk : Nat → Nat → Nat
  events : List Ev

/-- Complete state of one BufMgr (buffer.cpp) together with its File
collaborators.  The hash table is represented as an association list from
`(fileId, pageNo)` keys to frame numbers. -/
structure BufState where
  numBufs : Nat
  bufDescTable : List BufDesc
  bufPool : List Page
  hashTable : List ((Nat × Nat) × Nat)
  clockHand : Nat
  fs : FileSys

/-- Descriptor of frame `i` (out-of-range access yields the default descriptor). -/
def descOf (s : BufState) (i : Nat) : BufDesc := s.bufDescTable.getD i default

/-- Page buffer of frame `i`. -/
def poolOf (s : BufState) (i : Nat) : Page := s.bufPool.getD i default

/-- Modelled from the spec: HashTable lookup (spec section 4.2); `none` is the
HashNotFound outcome. -/
def lookupKey : List ((Nat × Nat) × Nat) → Nat × Nat → Option Nat
  | [], _ => none
  | e :: rest, k => if e.1 = k then some e.2 else lookupKey rest k

/-- Key-membership test for the hash index. -/
def containsKey (ht : List ((Nat × Nat) × Nat)) (k : Nat × Nat) : Bool :=
  (lookupKey ht k).isSome

/-- Modelled from the spec: HashTable remove (spec section 4.2); removes the
entry for the key, the caller checks presence first. -/
def removeKey : List ((Nat × Nat) × Nat) → Nat × Nat → List ((Nat × Nat) × Nat)
  | [], _ => []
  | e :: rest, k => if e.1 = k then rest else e :: removeKey rest k

/-- Keys of the index are pairwise distinct, as in any real hash table. -/
def keysNodup (ht : List ((Nat × Nat) × Nat)) : Prop :=
  (ht.map Prod.fst).Nodup

instance (ht : List ((Nat × Nat) × Nat)) : Decidable (keysNodup ht) := by
  unfold keysNodup; infer_instance

/-- Modelled from the spec: BufDesc::Set (spec section 4.1) — mark the frame
occupied by (file, pageNo); postcondition valid, pinCnt 1, dirty false,
refbit true. -/
def setDesc (d : BufDesc) (fid pno : Nat) : BufDesc :=
  { d with fileId := some fid, pageNo := pno, pinCnt := 1,
           dirty := false, refbit := true, valid := true }

/-- Modelled from the spec: BufDesc::Clear (spec section 4.1) — restore the
empty state: not valid, pinCnt 0, dirty and refbit false; file and pageNo are
unspecified by the spec and are reset here. -/
def clearDesc (d : BufDesc) : BufDesc :=
  { d with fileId := none, pageNo := 0, pinCnt := 0,
           dirty := false, refbit := false, valid := false }

/-- Eviction of the resident page of frame `h` whose index key is `k`: remove
the index entry and clear the descriptor (buffer.cpp lines 84-85, 211-213 and
222-224). -/
def evictAt (s : BufState) (h : Nat) (k : Nat × Nat) : BufState :=
  { s with hashTable := removeKey s.hashTable k,
           bufDescTable := s.bufDescTable.set h (clearDesc (descOf s h)) }

/-- Installation of page (fid, pno) into free frame `f`: insert the index
entry and run Set on the descriptor (buffer.cpp lines 142-143 and 180-181). -/
def installAt (s : BufState) (f : Nat) (fid pno : Nat) : BufState :=
  { s with hashTable := ((fid, pno), f) :: s.hashTable,
           bufDescTable := s.bufDescTable.set f (setDesc (descOf s f) fid pno) }

/-- Modelled from the spec: File::writePage (spec section 6) — persist the
page, which carries its own number; the call is recorded in the event trace. -/
def fsWrite (fs : FileSys) (fid : Nat) (p : Page) : FileSys :=
  { fs with
      disk := fun f n => if f = fid ∧ n = p.page_number then p.data else fs.disk f n,
      events := fs.events ++ [Ev.writePageEv fid p.page_number p.data] }

/-- Modelled from the spec: File::allocatePage (spec section 6) — reserve and
return a freshly numbered page. -/
def fsAlloc (fs : FileSys) (fid : Nat) : FileSys × Page :=
  let fresh := fs.nextPage fid
  ({ fs with
      nextPage := fun f => if f = fid then fresh + 1 else fs.nextPage f,
      disk := fun f n => if f = fid ∧ n = fresh then 0 else fs.disk f n,
      events := fs.events ++ [Ev.allocPageEv fid fresh] }, ⟨fresh, 0⟩)

/-- Modelled from the spec: File::deletePage (spec section 6). -/
def fsDelete (fs : FileSys) (fid pno : Nat) : FileSys :=
  { fs with events := fs.events ++ [Ev.deletePageEv fid pno] }

/-- Modelled from the spec: File::readPage (spec section 6) — fetch an existing
page from disk. -/
def fsRead (fs : FileSys) (fid pno : Nat) : Page :=
  ⟨pno, fs.disk fid pno⟩

/-- BufMgr::advanceClock (buffer.cpp line 41): clockHand := (clockHand+1) mod numBufs. -/
def advanceClock (s : BufState) : BufState :=
  { s with clockHand := (s.clockHand + 1) % s.numBufs }

/-- Outcome of the clock scan loop of BufMgr::allocBuf. -/
inductive ScanOut
  | free (frame : Nat) (s : BufState)
  | victim (s : BufState)
  | exceeded (s : BufState)

/-- Clock scan loop of BufMgr::allocBuf (buffer.cpp lines 52-70), fuel-indexed
because the source loop need not terminate; `none` means the loop was still
running after `fuel` iterations.  Line 61 of the source reads
`bufDescTable[clockHand].refbit == false;` — a comparison with no effect, so
this model faithfully leaves the reference bit unchanged on that branch. -/
def allocScan : Nat → Nat → BufState → Option ScanOut
  | 0, _, _ => none
  | fuel + 1, count, s =>
    if count ≤ s.numBufs then
      let s1 := advanceClock s
      let d := descOf s1 s1.clockHand
      if ¬ d.valid then some (ScanOut.free d.frameNo s1)
      else if d.refbit then allocScan fuel count s1
      else if d.pinCnt = 0 then some (ScanOut.victim s1)
      else allocScan fuel (count + 1) s1
    else some (ScanOut.exceeded s)

/-- Exceptions of the buffer manager. -/
inductive BufErr
  | bufferExceeded
  | hashNotFound
  | hashAlreadyPresent
  | pageNotPinned
  | pagePinned
  | badBuffer (frame : Nat)
deriving DecidableEq, Repr

/-- BufMgr::allocBuf (buffer.cpp lines 50-86): run the clock scan, then either
return the free frame, throw BufferExceeded, or evict the victim at the clock
hand: write it back when dirty, remove its index entry (HashNotFound if the
entry is absent, in which case the descriptor stays uncleared), and clear the
descriptor.  `none` means the scan loop did not finish within `fuel`. -/
def allocBuf (fuel : Nat) (s : BufState) : Option (BufState × Except BufErr Nat) :=
  match allocScan fuel 0 s with
  | none => none
  | some (ScanOut.free f s1) => some (s1, Except.ok f)
  | some (ScanOut.exceeded s1) => some (s1, Except.error BufErr.bufferExceeded)
  | some (ScanOut.victim s1) =>
    let h := s1.clockHand
    let d := descOf s1 h
    let s2 := if d.dirty then { s1 with fs := fsWrite s1.fs (d.fileId.getD 0) (poolOf s1 h) }
              else s1
    match d.fileId with
    | none => some (s2, Except.error BufErr.hashNotFound)
    | some f0 =>
      if containsKey s2.hashTable (f0, d.pageNo) then
        some (evictAt s2 h (f0, d.pageNo), Except.ok d.frameNo)
      else some (s2, Except.error BufErr.hashNotFound)

/-- The caller-supplied page pointer: either it addresses the buffer of frame
`i` of the pool, or it points at storage outside the pool. -/
inductive Handle
  | external
  | frame (i : Nat)
deriving DecidableEq, Repr

/-- Assignment `*page = p` through a page pointer: it updates the frame buffer
the pointer addresses, and touches no buffer-manager state when the pointer
addresses external storage. -/
def writeThrough (s : BufState) (h : Handle) (p : Page) : BufState :=
  match h with
  | Handle.external => s
  | Handle.frame i => { s with bufPool := s.bufPool.set i p }

/-- BufMgr::readPage (buffer.cpp lines 131-145).  On a hit it sets refbit and
increments pinCnt; on a miss it allocates a frame, assigns the page read from
disk through the caller's incoming pointer (the source never rebinds `page` to
a frame buffer), inserts the index entry and runs Set.  The returned Handle is
the value of the caller's pointer on return; the returned `Option BufErr` is an
exception propagated to the caller. -/
def readPage (fuel : Nat) (s : BufState) (fid pno : Nat) (page : Handle) :
    Option (BufState × Handle × Option BufErr) :=
  match lookupKey s.hashTable (fid, pno) with
  | some f =>
    let d := descOf s f
    let d1 : BufDesc := { d with refbit := true, pinCnt := d.pinCnt + 1 }
    some ({ s with bufDescTable := s.bufDescTable.set f d1 }, page, none)
  | none =>
    match allocBuf fuel s with
    | none => none
    | some (s1, Except.error e) => some (s1, page, some e)
    | some (s1, Except.ok f) =>
      let s2 := writeThrough s1 page (fsRead s1.fs fid pno)
      if containsKey s2.hashTable (fid, pno) then
        some (s2, page, some BufErr.hashAlreadyPresent)
      else
        some (installAt s2 f fid pno, page, none)

/-- BufMgr::unPinPage (buffer.cpp lines 147-170).  A missing index entry is
caught and only logged (state unchanged, no error); pinCnt zero raises
PageNotPinned; otherwise pinCnt is decremented and a true dirty argument sets
the dirty bit. -/
def unPinPage (s : BufState) (fid pno : Nat) (dirty : Bool) : BufState × Option BufErr :=
  match lookupKey s.hashTable (fid, pno) with
  | none => (s, none)
  | some f =>
    let d := descOf s f
    if d.pinCnt = 0 then (s, some BufErr.pageNotPinned)
    else
      let d1 : BufDesc := { d with pinCnt := d.pinCnt - 1, dirty := d.dirty || dirty }
      ({ s with bufDescTable := s.bufDescTable.set f d1 }, none)

/-- BufMgr::allocPage (buffer.cpp lines 173-186).  The source never assigns the
out-parameter `pageNo` from the allocated page, so the returned page number is
the caller's incoming value `pnoIn`, and the index entry is keyed by it as
well.  Every exception is caught inside allocPage and only logged; the returned
`Option BufErr` records such a swallowed exception (the call itself returns
normally). -/
def allocPage (fuel : Nat) (s : BufState) (fid pnoIn : Nat) (page : Handle) :
    Option (BufState × Nat × Handle × Option BufErr) :=
  match allocBuf fuel s with
  | none => none
  | some (s1, Except.error e) => some (s1, pnoIn, page, some e)
  | some (s1, Except.ok f) =>
    let fa := fsAlloc s1.fs fid
    let s2 := { s1 with fs := fa.1, bufPool := s1.bufPool.set f fa.2 }
    if containsKey s2.hashTable (fid, pnoIn) then
      some (s2, pnoIn, Handle.frame f, some BufErr.hashAlreadyPresent)
    else
      some (installAt s2 f fid pnoIn, pnoIn, Handle.frame f, none)

/-- Write-back step of the flushFile loop (buffer.cpp lines 206-210): when the
frame is dirty, write its pool page via the File collaborator and clear the
dirty bit; otherwise no change. -/
def flushWB (fid : Nat) (s : BufState) (i : Nat) : BufState :=
  if (descOf s i).dirty then
    { s with
        fs := fsWrite s.fs fid (poolOf s i)
        bufDescTable := s.bufDescTable.set i ({ descOf s i with dirty := false }) }
  else s

/-- Body of the flushFile loop for one frame `i` (buffer.cpp lines 193-214):
skip frames of other files; BadBuffer on an invalid matching frame; PagePinned
on a pinned one; otherwise write back when dirty, remove the index entry and
clear the descriptor. -/
def flushFrame (fid : Nat) (s : BufState) (i : Nat) : BufState × Option BufErr :=
  if (descOf s i).fileId = some fid then
    if (descOf s i).valid = false then (s, some (BufErr.badBuffer i))
    else if (descOf s i).pinCnt ≠ 0 then (s, some BufErr.pagePinned)
    else if containsKey (flushWB fid s i).hashTable (fid, (descOf s i).pageNo) then
      (evictAt (flushWB fid s i) i (fid, (descOf s i).pageNo), none)
    else (flushWB fid s i, some BufErr.hashNotFound)
  else (s, none)

/-- The flushFile scan over frames `i, i+1, ...` (`fuel` many); the first
exception terminates the scan with the state reached at that point. -/
def flushIter (fid : Nat) : Nat → Nat → BufState → BufState × Option BufErr
  | _, 0, s => (s, none)
  | i, fuel + 1, s =>
    match flushFrame fid s i with
    | (s1, none) => flushIter fid (i + 1) fuel s1
    | (s1, some e) => (s1, some e)

/-- BufMgr::flushFile (buffer.cpp lines 188-216): scan all frames in increasing
FrameId order. -/
def flushFile (s : BufState) (fid : Nat) : BufState × Option BufErr :=
  flushIter fid 0 s.numBufs s

/-- The write-back events flushFile emits for frames `i, ..., i+fuel-1` given
the descriptors and pool of state `s`: one writePage per matching dirty frame,
in increasing frame order. -/
def flushWrites (fid : Nat) (s : BufState) : Nat → Nat → List Ev
  | _, 0 => []
  | i, fuel + 1 =>
    (if (descOf s i).fileId = some fid ∧ (descOf s i).dirty then
        [Ev.writePageEv fid (poolOf s i).page_number (poolOf s i).data]
      else []) ++ flushWrites fid s (i + 1) fuel

/-- BufMgr::disposePage (buffer.cpp lines 218-230): if the page is resident,
clear its descriptor and remove its index entry (a missing entry is silently
tolerated); then always call File::deletePage. -/
def disposePage (s : BufState) (fid pno : Nat) : BufState :=
  let s1 :=
    match lookupKey s.hashTable (fid, pno) with
    | some f => evictAt s f (fid, pno)
    | none => s
  { s1 with fs := fsDelete s1.fs fid pno }

/-- Descriptor of an empty frame as produced by the BufMgr constructor
(buffer.cpp lines 33-36). -/
def emptyDesc (i : Nat) : BufDesc :=
  { frameNo := i, fileId := none, pageNo := 0, pinCnt := 0,
    dirty := false, refbit := false, valid := false }

/-- BufMgr::BufMgr (buffer.cpp lines 28-39): `n` empty frames, empty index,
clock hand at `n - 1`. -/
def initState (n : Nat) (fs0 : FileSys) : BufState :=
  { numBufs := n,
    bufDescTable := (List.range n).map emptyDesc,
    bufPool := List.replicate n default,
    hashTable := [],
    clockHand := n - 1,
    fs := fs0 }

/-- One public operation of the manager, with the values the caller passes in
(including the incoming value of out-parameters, which the source sometimes
reads). -/
inductive Op
  | read (fid pno : Nat) (page : Handle)
  | alloc (fid pnoIn : Nat) (page : Handle)
  | unpin (fid pno : Nat) (dirty : Bool)
  | flush (fid : Nat)
  | dispose (fid pno : Nat)

/-- Run one public operation, keeping only the state; `none` means the call did
not terminate within `fuel` clock-scan iterations.  A raised exception leaves
the manager in the state it had reached when the exception was thrown, which is
the state at the following quiescent point. -/
def stepOp (fuel : Nat) (s : BufState) : Op → Option BufState
  | Op.read fid pno page => (readPage fuel s fid pno page).map (fun r => r.1)
  | Op.alloc fid pnoIn page => (allocPage fuel s fid pnoIn page).map (fun r => r.1)
  | Op.unpin fid pno dirty => some (unPinPage s fid pno dirty).1
  | Op.flush fid => some (flushFile s fid).1
  | Op.dispose fid pno => some (disposePage s fid pno)

/-- Run a sequence of public operations from a state. -/
def runOps (fuel : Nat) : List Op → BufState → Option BufState
  | [], s => some s
  | op :: ops, s => (stepOp fuel s op).bind (runOps fuel ops)

/-- Core invariants of spec section 3 (items 1-5 directly; item 6 is derived in
`inv_resident_unique`) together with the structural well-formedness facts they
presuppose: table lengths, frameNo fields, distinct index keys, index targets
in range. -/
def Inv (s : BufState) : Prop :=
  0 < s.numBufs ∧
  s.bufDescTable.length = s.numBufs ∧
  s.bufPool.length = s.numBufs ∧
  s.clockHand < s.numBufs ∧
  (∀ i, i < s.numBufs → (descOf s i).frameNo = i) ∧
  (∀ i, i < s.numBufs → (descOf s i).valid = true →
    (descOf s i).fileId ≠ none ∧
    (((descOf s i).fileId.getD 0, (descOf s i).pageNo), i) ∈ s.hashTable) ∧
  (∀ e, e ∈ s.hashTable → e.2 < s.numBufs ∧ (descOf s e.2).valid = true ∧
    (descOf s e.2).fileId = some e.1.1 ∧ (descOf s e.2).pageNo = e.1.2) ∧
  keysNodup s.hashTable ∧
  (∀ i, i < s.numBufs → 0 < (descOf s i).pinCnt → (descOf s i).valid = true) ∧
  (∀ i, i < s.numBufs → (descOf s i).dirty = true → (descOf s i).valid = true)

instance (s : BufState) : Decidable (Inv s) := by
  unfold Inv
  have d1 : Decidable (∀ i, i < s.numBufs → (descOf s i).frameNo = i) :=
    Nat.decidableBallLT _ _
  have d2 : Decidable (∀ i, i < s.numBufs → (descOf s i).valid = true →
      (descOf s i).fileId ≠ none ∧
      (((descOf s i).fileId.getD 0, (descOf s i).pageNo), i) ∈ s.hashTable) :=
    Nat.decidableBallLT _ _
  have d3 : Decidable (∀ i, i < s.numBufs → 0 < (descOf s i).pinCnt →
      (descOf s i).valid = true) := Nat.decidableBallLT _ _
  have d4 : Decidable (∀ i, i < s.numBufs → (descOf s i).dirty = true →
      (descOf s i).valid = true) := Nat.decidableBallLT _ _
  infer_instance

/-- State carried by a scan outcome. -/
def scanState : ScanOut → BufState
  | ScanOut.free _ s => s
  | ScanOut.victim s => s
  | ScanOut.exceeded s => s

/-- Demo File collaborator: every file hands out page 7 next; empty trace. -/
def fsDemo : FileSys := ⟨fun _ => 7, fun _ _ => 0, []⟩

/-- Demo state: one frame holding (file 1, page 5) with pin count 0. -/
def stNotPinned : BufState :=
  ⟨1, [⟨0, some 1, 5, 0, false, true, true⟩], [⟨5, 0⟩], [((1, 5), 0)], 0, fsDemo⟩

/-- Demo state: frame 0 holds (file 1, page 5) pinned twice and dirty; frame 1
is empty. -/
def stPinned : BufState :=
  ⟨2, [⟨0, some 1, 5, 2, true, true, true⟩, ⟨1, none, 0, 0, false, false, false⟩],
   [⟨5, 3⟩, ⟨0, 0⟩], [((1, 5), 0)], 0, fsDemo⟩

/-- Demo state: both frames valid with reference bit set and pin count 0 —
every frame is an eviction candidate once its refbit is cleared. -/
def stHangFree : BufState :=
  ⟨2, [⟨0, some 1, 1, 0, false, true, true⟩, ⟨1, some 1, 2, 0, false, true, true⟩],
   [⟨1, 0⟩, ⟨2, 0⟩], [((1, 1), 0), ((1, 2), 1)], 1, fsDemo⟩

/-- Demo state: both frames valid, pinned once, reference bit set — every
frame is pinned, so the spec requires BufferExceeded. -/
def stHangPinned : BufState :=
  ⟨2, [⟨0, some 1, 1, 1, false, true, true⟩, ⟨1, some 1, 2, 1, false, true, true⟩],
   [⟨1, 0⟩, ⟨2, 0⟩], [((1, 1), 0), ((1, 2), 1)], 1, fsDemo⟩

/-- Demo state: frame 0 holds a dirty unpinned page of file 1; frame 1 holds a
clean unpinned page of file 2. -/
def stFlushDemo : BufState :=
  ⟨2, [⟨0, some 1, 5, 0, true, false, true⟩, ⟨1, some 2, 3, 0, false, false, true⟩],
   [⟨5, 9⟩, ⟨3, 4⟩], [((1, 5), 0), ((2, 3), 1)], 1, fsDemo⟩

/-- Demo state: frame 0 holds a dirty unpinned page of file 1, frame 1 a
pinned page of the same file. -/
def stFlushPinnedDemo : BufState :=
  ⟨2, [⟨0, some 1, 5, 0, true, false, true⟩, ⟨1, some 1, 6, 2, false, false, true⟩],
   [⟨5, 9⟩, ⟨6, 4⟩], [((1, 5), 0), ((1, 6), 1)], 1, fsDemo⟩

/-- Demo operation sequence exercising all five public operations. -/
def opsDemo : List Op :=
  [Op.read 1 5 Handle.external, Op.alloc 1 9 Handle.external,
   Op.unpin 1 5 true, Op.flush 1, Op.dispose 1 9]

theorem lookupKey_mem {ht : List ((Nat × Nat) × Nat)} {k : Nat × Nat} {v : Nat}
    (h : lookupKey ht k = some v) : (k, v) ∈ ht := by
  induction ht with
  | nil => simp [lookupKey] at h
  | cons e rest ih =>
    by_cases he : e.1 = k
    · simp [lookupKey, he] at h
      have : e = (k, v) := by
        cases e; simp at he h ⊢; exact ⟨he, h⟩
      rw [← this]
      exact List.mem_cons_self _ _
    · simp [lookupKey, he] at h
      exact List.mem_cons_of_mem _ (ih h)

theorem lookupKey_none_iff {ht : List ((Nat × Nat) × Nat)} {k : Nat × Nat} :
    lookupKey ht k = none ↔ ∀ e ∈ ht, e.1 ≠ k := by
  induction ht with
  | nil => simp [lookupKey]
  | cons e rest ih =>
    by_cases he : e.1 = k
    · simp [lookupKey, he]
    · simp [lookupKey, he, ih]

theorem mem_lookupKey_of_nodup {ht : List ((Nat × Nat) × Nat)} {k : Nat × Nat} {v : Nat}
    (hn : keysNodup ht) (h : (k, v) ∈ ht) : lookupKey ht k = some v := by
  induction ht with
  | nil => simp at h
  | cons e rest ih =>
    rcases List.mem_cons.mp h with he | hrest
    · subst he; simp [lookupKey]
    · have hn' : keysNodup rest := (List.nodup_cons.mp hn).2
      by_cases he : e.1 = k
      · exfalso
        have : k ∈ rest.map Prod.fst := List.mem_map.mpr ⟨(k, v), hrest, rfl⟩
        have := (List.nodup_cons.mp hn).1
        rw [he] at this
        exact this ‹k ∈ rest.map Prod.fst›
      · simp [lookupKey, he]
        exact ih hn' hrest

theorem mem_removeKey {ht : List ((Nat × Nat) × Nat)} {k : Nat × Nat}
    {e : (Nat × Nat) × Nat} (hn : keysNodup ht) :
    e ∈ removeKey ht k ↔ e ∈ ht ∧ e.1 ≠ k := by
  induction ht with
  | nil => simp [removeKey]
  | cons x rest ih =>
    have hn' : keysNodup rest := (List.nodup_cons.mp hn).2
    by_cases hx : x.1 = k
    · simp only [removeKey, if_pos hx]
      constructor
      · intro he
        refine ⟨List.mem_cons_of_mem _ he, ?_⟩
        intro hek
        have : e.1 ∈ rest.map Prod.fst := List.mem_map.mpr ⟨e, he, rfl⟩
        have hnotin := (List.nodup_cons.mp hn).1
        rw [hek, ← hx] at this
        exact hnotin this
      · rintro ⟨he, hek⟩
        rcases List.mem_cons.mp he with rfl | h
        · exact absurd hx hek
        · exact h
    · simp only [removeKey, if_neg hx, List.mem_cons, ih hn']
      constructor
      · rintro (rfl | ⟨he, hek⟩)
        · exact ⟨Or.inl rfl, hx⟩
        · exact ⟨Or.inr he, hek⟩
      · rintro ⟨rfl | he, hek⟩
        · exact Or.inl rfl
        · exact Or.inr ⟨he, hek⟩

theorem mem_of_mem_removeKey {ht : List ((Nat × Nat) × Nat)} {k : Nat × Nat}
    {e : (Nat × Nat) × Nat} (h : e ∈ removeKey ht k) : e ∈ ht := by
  induction ht with
  | nil => simp [removeKey] at h
  | cons x rest ih =>
    by_cases hx : x.1 = k
    · simp only [removeKey, if_pos hx] at h
      exact List.mem_cons_of_mem _ h
    · simp only [removeKey, if_neg hx, List.mem_cons] at h ⊢
      exact h.imp id ih

theorem keysNodup_removeKey {ht : List ((Nat × Nat) × Nat)} {k : Nat × Nat}
    (hn : keysNodup ht) : keysNodup (removeKey ht k) := by
  induction ht with
  | nil => simpa [removeKey] using hn
  | cons x rest ih =>
    have hn' : keysNodup rest := (List.nodup_cons.mp hn).2
    by_cases hx : x.1 = k
    · simpa [removeKey, hx] using hn'
    · simp only [removeKey, if_neg hx]
      refine List.nodup_cons.mpr ⟨?_, ih hn'⟩
      intro hmem
      rcases List.mem_map.mp hmem with ⟨e, he, hfst⟩
      have : e ∈ rest := mem_of_mem_removeKey he
      exact (List.nodup_cons.mp hn).1 (List.mem_map.mpr ⟨e, this, hfst⟩)

theorem getD_set_self {α : Type} {l : List α} {i : Nat} {a d : α} (h : i < l.length) :
    (l.set i a).getD i d = a := by
  simp [List.getD, List.getElem?_set_self, h]

theorem getD_set_ne {α : Type} {l : List α} {i j : Nat} {a d : α} (h : i ≠ j) :
    (l.set i a).getD j d = l.getD j d := by
  simp [List.getD, List.getElem?_set_ne h]

theorem getD_map_range {α : Type} {n i : Nat} (h : i < n) (f : Nat → α) (d : α) :
    ((List.range n).map f).getD i d = f i := by
  simp [List.getD, List.getElem?_map, List.getElem?_range h]

/-- Invariant 6 of spec section 3, derived: a resident page occupies exactly
one frame. -/
theorem inv_resident_unique {s : BufState} (hs : Inv s) :
    ∀ i j, i < s.numBufs → j < s.numBufs →
      (descOf s i).valid = true → (descOf s j).valid = true →
      (descOf s i).fileId = (descOf s j).fileId →
      (descOf s i).pageNo = (descOf s j).pageNo → i = j := by
  obtain ⟨-, -, -, -, -, h1, h2, hn, -, -⟩ := hs
  intro i j hi hj hvi hvj hfile hpage
  obtain ⟨hfi, hmi⟩ := h1 i hi hvi
  obtain ⟨hfj, hmj⟩ := h1 j hj hvj
  have hkeyeq : ((descOf s i).fileId.getD 0, (descOf s i).pageNo)
      = ((descOf s j).fileId.getD 0, (descOf s j).pageNo) := by
    rw [hfile, hpage]
  have hli := mem_lookupKey_of_nodup hn hmi
  have hlj := mem_lookupKey_of_nodup hn hmj
  rw [hkeyeq] at hli
  exact Option.some_injective _ (hli.symm.trans hlj)

/-- The uniqueness half of invariant 1 of spec section 3, derived: no two index
entries map to the same frame. -/
theorem inv_entry_unique {s : BufState} (hs : Inv s) :
    ∀ e1 e2, e1 ∈ s.hashTable → e2 ∈ s.hashTable → e1.2 = e2.2 → e1 = e2 := by
  obtain ⟨-, -, -, -, -, -, h2, hn, -, -⟩ := hs
  intro e1 e2 h1m h2m hfr
  obtain ⟨-, -, hf1, hp1⟩ := h2 e1 h1m
  obtain ⟨-, -, hf2, hp2⟩ := h2 e2 h2m
  have hkey : e1.1 = e2.1 := by
    rw [hfr] at hf1 hp1
    have : some e1.1.1 = some e2.1.1 := by rw [← hf1, hf2]
    have hfst := Option.some_injective _ this
    have hsnd : e1.1.2 = e2.1.2 := by rw [← hp1, hp2]
    exact Prod.ext hfst hsnd
  have hl1 := mem_lookupKey_of_nodup hn h1m
  have hl2 := mem_lookupKey_of_nodup hn h2m
  rw [hkey] at hl1
  rw [hl1] at hl2
  have := Option.some_injective _ hl2
  exact Prod.ext hkey this

/-- The clock scan only moves the clock hand: every other component is
untouched (the source's reference-bit clear on line 61 is a no-op comparison),
and each terminating outcome carries the advertised facts about the descriptor
at the hand. -/
theorem allocScan_spec {fuel : Nat} : ∀ {count : Nat} {s : BufState} {out : ScanOut},
    0 < s.numBufs → s.clockHand < s.numBufs → allocScan fuel count s = some out →
    (scanState out).numBufs = s.numBufs ∧
    (scanState out).bufDescTable = s.bufDescTable ∧
    (scanState out).bufPool = s.bufPool ∧
    (scanState out).hashTable = s.hashTable ∧
    (scanState out).fs = s.fs ∧
    (scanState out).clockHand < s.numBufs ∧
    (∀ f s1, out = ScanOut.free f s1 →
      (descOf s1 s1.clockHand).valid = false ∧ f = (descOf s1 s1.clockHand).frameNo) ∧
    (∀ s1, out = ScanOut.victim s1 →
      (descOf s1 s1.clockHand).valid = true ∧ (descOf s1 s1.clockHand).refbit = false ∧
      (descOf s1 s1.clockHand).pinCnt = 0) := by
  induction fuel with
  | zero =>
    intro count s out _ _ h
    simp [allocScan] at h
  | succ fuel ih =>
    intro count s out hN hc h
    rw [allocScan] at h
    by_cases hcount : count ≤ s.numBufs
    · rw [if_pos hcount] at h
      simp only at h
      have hdesc : ∀ i, descOf (advanceClock s) i = descOf s i := fun _ => rfl
      have hclk : (advanceClock s).clockHand < s.numBufs := Nat.mod_lt _ hN
      by_cases hv : (descOf (advanceClock s) (advanceClock s).clockHand).valid = true
      · rw [if_neg (by simp [hv])] at h
        by_cases hr : (descOf (advanceClock s) (advanceClock s).clockHand).refbit = true
        · rw [if_pos hr] at h
          have := ih (s := advanceClock s) hN hclk h
          exact ⟨this.1, this.2.1, this.2.2.1, this.2.2.2.1, this.2.2.2.2.1,
            this.2.2.2.2.2.1, this.2.2.2.2.2.2⟩
        · rw [if_neg hr] at h
          by_cases hp : (descOf (advanceClock s) (advanceClock s).clockHand).pinCnt = 0
          · rw [if_pos hp] at h
            have hout : out = ScanOut.victim (advanceClock s) := by
              exact (Option.some_injective _ h).symm
            subst hout
            refine ⟨rfl, rfl, rfl, rfl, rfl, hclk, ?_, ?_⟩
            · intro f s1 hbad; cases hbad
            · intro s1 heq
              cases heq
              exact ⟨hv, Bool.not_eq_true _ ▸ (by simpa using hr), hp⟩
          · rw [if_neg hp] at h
            have := ih (s := advanceClock s) hN hclk h
            exact ⟨this.1, this.2.1, this.2.2.1, this.2.2.2.1, this.2.2.2.2.1,
              this.2.2.2.2.2.1, this.2.2.2.2.2.2⟩
      · rw [if_pos (by simp [hv])] at h
        have hout : out = ScanOut.free
            (descOf (advanceClock s) (advanceClock s).clockHand).frameNo (advanceClock s) := by
          exact (Option.some_injective _ h).symm
        subst hout
        refine ⟨rfl, rfl, rfl, rfl, rfl, hclk, ?_, ?_⟩
        · intro f s1 heq
          cases heq
          exact ⟨by simpa using hv, rfl⟩
        · intro s1 hbad; cases hbad
    · rw [if_neg hcount] at h
      have hout : out = ScanOut.exceeded s := (Option.some_injective _ h).symm
      subst hout
      refine ⟨rfl, rfl, rfl, rfl, rfl, hc, ?_, ?_⟩
      · intro f s1 hbad; cases hbad
      · intro s1 hbad; cases hbad

theorem descOf_writeThrough (s : BufState) (h : Handle) (p : Page) (i : Nat) :
    descOf (writeThrough s h p) i = descOf s i := by
  cases h <;> rfl

theorem writeThrough_hashTable (s : BufState) (h : Handle) (p : Page) :
    (writeThrough s h p).hashTable = s.hashTable := by
  cases h <;> rfl

theorem writeThrough_numBufs (s : BufState) (h : Handle) (p : Page) :
    (writeThrough s h p).numBufs = s.numBufs := by
  cases h <;> rfl

theorem writeThrough_bufDescTable (s : BufState) (h : Handle) (p : Page) :
    (writeThrough s h p).bufDescTable = s.bufDescTable := by
  cases h <;> rfl

theorem writeThrough_clockHand (s : BufState) (h : Handle) (p : Page) :
    (writeThrough s h p).clockHand = s.clockHand := by
  cases h <;> rfl

theorem writeThrough_pool_length (s : BufState) (h : Handle) (p : Page) :
    (writeThrough s h p).bufPool.length = s.bufPool.length := by
  cases h <;> simp [writeThrough, List.length_set]

/-- Transport of the invariant along component equalities (the page-buffer array
enters the invariant only through its length). -/
theorem inv_transport {s t : BufState} (hs : Inv s)
    (h1 : t.numBufs = s.numBufs) (h2 : t.bufDescTable = s.bufDescTable)
    (h3 : t.bufPool.length = s.bufPool.length) (h4 : t.hashTable = s.hashTable)
    (h5 : t.clockHand < t.numBufs) : Inv t := by
  obtain ⟨a1, a2, a3, a4, a5, a6, a7, a8, a9, a10⟩ := hs
  have hd : ∀ i, descOf t i = descOf s i := by
    intro i; simp [descOf, h2]
  refine ⟨?_, ?_, ?_, h5, ?_, ?_, ?_, ?_, ?_, ?_⟩
  · rw [h1]; exact a1
  · rw [h1, h2]; exact a2
  · rw [h1, h3]; exact a3
  · intro i hi; rw [hd]; exact a5 i (h1 ▸ hi)
  · intro i hi hv
    rw [hd] at hv ⊢
    rw [h4]
    exact a6 i (h1 ▸ hi) hv
  · intro e he
    rw [h4] at he
    rw [hd, h1]
    exact a7 e he
  · rw [h4]; exact a8
  · intro i hi; rw [hd]; exact a9 i (h1 ▸ hi)
  · intro i hi; rw [hd]; exact a10 i (h1 ▸ hi)

theorem inv_writeThrough {s : BufState} (hs : Inv s) (h : Handle) (p : Page) :
    Inv (writeThrough s h p) := by
  refine inv_transport hs (writeThrough_numBufs s h p) (writeThrough_bufDescTable s h p)
    (writeThrough_pool_length s h p) (writeThrough_hashTable s h p) ?_
  rw [writeThrough_clockHand, writeThrough_numBufs]
  exact hs.2.2.2.1

/-- Updating only the pin count, dirty bit and reference bit of one in-range
frame preserves the invariant, provided the pin and dirty implications still
hold for the new descriptor. -/
theorem inv_update_flags {s : BufState} (hs : Inv s) {f : Nat} (hf : f < s.numBufs)
    {d1 : BufDesc}
    (hfr : d1.frameNo = (descOf s f).frameNo) (hfi : d1.fileId = (descOf s f).fileId)
    (hpg : d1.pageNo = (descOf s f).pageNo) (hvd : d1.valid = (descOf s f).valid)
    (hpin : 0 < d1.pinCnt → d1.valid = true) (hdr : d1.dirty = true → d1.valid = true) :
    Inv { s with bufDescTable := s.bufDescTable.set f d1 } := by
  obtain ⟨a1, a2, a3, a4, a5, a6, a7, a8, a9, a10⟩ := hs
  have hflen : f < s.bufDescTable.length := by rw [a2]; exact hf
  have hdeq : descOf { s with bufDescTable := s.bufDescTable.set f d1 } f = d1 := by
    show (s.bufDescTable.set f d1).getD f default = d1
    exact getD_set_self hflen
  have hdne : ∀ i, f ≠ i →
      descOf { s with bufDescTable := s.bufDescTable.set f d1 } i = descOf s i := by
    intro i hne
    show (s.bufDescTable.set f d1).getD i default = descOf s i
    rw [getD_set_ne hne]; rfl
  refine ⟨a1, ?_, a3, a4, ?_, ?_, ?_, a8, ?_, ?_⟩
  · simpa [List.length_set] using a2
  · intro i hi
    by_cases hfe : f = i
    · subst hfe; rw [hdeq, hfr]; exact a5 f hf
    · rw [hdne i hfe]; exact a5 i hi
  · intro i hi hv
    by_cases hfe : f = i
    · subst hfe
      rw [hdeq] at hv ⊢
      rw [hvd] at hv
      obtain ⟨hne, hmem⟩ := a6 f hf hv
      rw [hfi, hpg]
      exact ⟨hne, hmem⟩
    · rw [hdne i hfe] at hv ⊢
      exact a6 i hi hv
  · intro e he
    obtain ⟨he1, he2, he3, he4⟩ := a7 e he
    by_cases hfe : f = e.2
    · subst hfe
      rw [hdeq, hvd, hfi, hpg]
      exact ⟨he1, he2, he3, he4⟩
    · rw [hdne e.2 hfe]
      exact ⟨he1, he2, he3, he4⟩
  · intro i hi hp
    by_cases hfe : f = i
    · subst hfe; rw [hdeq] at hp ⊢; exact hpin hp
    · rw [hdne i hfe] at hp ⊢; exact a9 i hi hp
  · intro i hi hp
    by_cases hfe : f = i
    · subst hfe; rw [hdeq] at hp ⊢; exact hdr hp
    · rw [hdne i hfe] at hp ⊢; exact a10 i hi hp

/-- Evicting the resident page of a valid frame (clearing the descriptor and
removing exactly its index entry) preserves the invariant. -/
theorem inv_evictAt {s : BufState} (hs : Inv s) {h : Nat} {k : Nat × Nat}
    (hh : h < s.numBufs) (hv : (descOf s h).valid = true)
    (hfi : (descOf s h).fileId = some k.1) (hpg : (descOf s h).pageNo = k.2) :
    Inv (evictAt s h k) := by
  obtain ⟨a1, a2, a3, a4, a5, a6, a7, a8, a9, a10⟩ := hs
  have hhlen : h < s.bufDescTable.length := by rw [a2]; exact hh
  have hdeq : descOf (evictAt s h k) h = clearDesc (descOf s h) := by
    show (s.bufDescTable.set h (clearDesc (descOf s h))).getD h default = clearDesc (descOf s h)
    exact getD_set_self hhlen
  have hdne : ∀ i, h ≠ i → descOf (evictAt s h k) i = descOf s i := by
    intro i hne
    show (s.bufDescTable.set h (clearDesc (descOf s h))).getD i default = descOf s i
    rw [getD_set_ne hne]; rfl
  have hkh : (k, h) ∈ s.hashTable := by
    have hmemh := (a6 h hh hv).2
    have hkh2 : ((descOf s h).fileId.getD 0, (descOf s h).pageNo) = k := by
      rw [hfi, hpg]; simp
    rw [hkh2] at hmemh
    exact hmemh
  have hkey_of_target : ∀ e, e ∈ s.hashTable → e.2 = h → e.1 = k := by
    intro e he hfrm
    obtain ⟨-, -, he3, he4⟩ := a7 e he
    rw [hfrm, hfi] at he3
    rw [hfrm, hpg] at he4
    exact Prod.ext (Option.some_injective _ he3).symm he4.symm
  have htarget_of_key : ∀ i, (k, i) ∈ s.hashTable → i = h := by
    intro i hki
    have h1 := mem_lookupKey_of_nodup a8 hkh
    have h2 := mem_lookupKey_of_nodup a8 hki
    rw [h1] at h2
    exact (Option.some_injective _ h2).symm
  have hmem2 : ∀ e : (Nat × Nat) × Nat,
      e ∈ (evictAt s h k).hashTable ↔ e ∈ s.hashTable ∧ e.1 ≠ k := by
    intro e; exact mem_removeKey a8
  refine ⟨a1, ?_, a3, a4, ?_, ?_, ?_, ?_, ?_, ?_⟩
  · simpa [evictAt, List.length_set] using a2
  · intro i hi
    by_cases hfe : h = i
    · subst hfe; rw [hdeq]; exact a5 h hh
    · rw [hdne i hfe]; exact a5 i hi
  · intro i hi hvi
    by_cases hfe : h = i
    · subst hfe
      rw [hdeq] at hvi
      simp [clearDesc] at hvi
    · rw [hdne i hfe] at hvi ⊢
      obtain ⟨hne, hmem⟩ := a6 i hi hvi
      refine ⟨hne, (hmem2 _).mpr ⟨hmem, ?_⟩⟩
      intro hkeq
      have hki : (k, i) ∈ s.hashTable := by rw [← hkeq]; exact hmem
      exact hfe (htarget_of_key i hki).symm
  · intro e he
    rw [hmem2] at he
    obtain ⟨hem, hek⟩ := he
    have hne2 : h ≠ e.2 := by
      intro hfrm
      exact hek (hkey_of_target e hem hfrm.symm)
    obtain ⟨he1, he2, he3, he4⟩ := a7 e hem
    rw [hdne e.2 hne2]
    exact ⟨he1, he2, he3, he4⟩
  · exact keysNodup_removeKey a8
  · intro i hi hp
    by_cases hfe : h = i
    · subst hfe; rw [hdeq] at hp; simp [clearDesc] at hp
    · rw [hdne i hfe] at hp ⊢; exact a9 i hi hp
  · intro i hi hp
    by_cases hfe : h = i
    · subst hfe; rw [hdeq] at hp; simp [clearDesc] at hp
    · rw [hdne i hfe] at hp ⊢; exact a10 i hi hp

/-- Installing a non-resident page into an invalid in-range frame preserves the
invariant. -/
theorem inv_installAt {s : BufState} (hs : Inv s) {f fid pno : Nat}
    (hf : f < s.numBufs) (hnv : (descOf s f).valid = false)
    (hlk : lookupKey s.hashTable (fid, pno) = none) :
    Inv (installAt s f fid pno) := by
  obtain ⟨a1, a2, a3, a4, a5, a6, a7, a8, a9, a10⟩ := hs
  have hflen : f < s.bufDescTable.length := by rw [a2]; exact hf
  have hnotarget : ∀ e, e ∈ s.hashTable → e.2 ≠ f := by
    intro e he hfrm
    obtain ⟨-, he2, -, -⟩ := a7 e he
    rw [hfrm] at he2
    rw [he2] at hnv
    exact Bool.true_eq_false.mp hnv
  have hfresh : ∀ e, e ∈ s.hashTable → e.1 ≠ (fid, pno) :=
    lookupKey_none_iff.mp hlk
  have hdeq : descOf (installAt s f fid pno) f = setDesc (descOf s f) fid pno := by
    show (s.bufDescTable.set f (setDesc (descOf s f) fid pno)).getD f default
        = setDesc (descOf s f) fid pno
    exact getD_set_self hflen
  have hdne : ∀ i, f ≠ i → descOf (installAt s f fid pno) i = descOf s i := by
    intro i hne
    show (s.bufDescTable.set f (setDesc (descOf s f) fid pno)).getD i default = descOf s i
    rw [getD_set_ne hne]; rfl
  refine ⟨a1, ?_, a3, a4, ?_, ?_, ?_, ?_, ?_, ?_⟩
  · simpa [installAt, List.length_set] using a2
  · intro i hi
    by_cases hfe : f = i
    · subst hfe; rw [hdeq]; exact a5 f hf
    · rw [hdne i hfe]; exact a5 i hi
  · intro i hi hvi
    by_cases hfe : f = i
    · subst hfe
      rw [hdeq]
      refine ⟨by simp [setDesc], ?_⟩
      show (((setDesc (descOf s f) fid pno).fileId.getD 0,
        (setDesc (descOf s f) fid pno).pageNo), f) ∈ ((fid, pno), f) :: s.hashTable
      simp [setDesc]
    · rw [hdne i hfe] at hvi ⊢
      obtain ⟨hne, hmem⟩ := a6 i hi hvi
      exact ⟨hne, List.mem_cons_of_mem _ hmem⟩
  · intro e he
    have he2 : e = ((fid, pno), f) ∨ e ∈ s.hashTable := List.mem_cons.mp he
    rcases he2 with rfl | hmem
    · rw [hdeq]
      exact ⟨hf, by simp [setDesc]⟩
    · have hne : f ≠ e.2 := fun hx => hnotarget e hmem hx.symm
      rw [hdne e.2 hne]
      exact a7 e hmem
  · refine List.nodup_cons.mpr ⟨?_, a8⟩
    intro hmem
    rcases List.mem_map.mp hmem with ⟨e, he, hfst⟩
    exact hfresh e he hfst
  · intro i hi hp
    by_cases hfe : f = i
    · subst hfe; rw [hdeq]; simp [setDesc]
    · rw [hdne i hfe] at hp ⊢; exact a9 i hi hp
  · intro i hi hp
    by_cases hfe : f = i
    · subst hfe; rw [hdeq] at hp; simp [setDesc] at hp
    · rw [hdne i hfe] at hp ⊢; exact a10 i hi hp

theorem inv_set_fs {s : BufState} (hs : Inv s) (fs1 : FileSys) : Inv { s with fs := fs1 } :=
  inv_transport hs rfl rfl rfl rfl hs.2.2.2.1

/-- Under the invariant, a terminating allocBuf call preserves the invariant,
only removes index entries, keeps the pool size, and a successful result is an
in-range invalid frame. -/
theorem allocBuf_inv {fuel : Nat} {s s1 : BufState} {r : Except BufErr Nat}
    (hs : Inv s) (h : allocBuf fuel s = some (s1, r)) :
    Inv s1 ∧ (∀ e, e ∈ s1.hashTable → e ∈ s.hashTable) ∧
    s1.numBufs = s.numBufs ∧
    (∀ f, r = Except.ok f → f < s1.numBufs ∧ (descOf s1 f).valid = false) := by
  unfold allocBuf at h
  cases hscan : allocScan fuel 0 s with
  | none => rw [hscan] at h; simp at h
  | some out =>
    rw [hscan] at h
    obtain ⟨e1, e2, e3, e4, e5, e6, hfree, hvict⟩ := allocScan_spec hs.1 hs.2.2.2.1 hscan
    cases out with
    | free f s' =>
      simp only [scanState] at e1 e2 e3 e4 e5 e6
      obtain ⟨hv, hfno⟩ := hfree f s' rfl
      simp only [] at h
      injection h with h2
      injection h2 with hA hB
      subst hA
      subst hB
      have hinv : Inv s' := inv_transport hs e1 e2 (by rw [e3]) e4 (by rw [e1]; exact e6)
      refine ⟨hinv, ?_, e1, ?_⟩
      · intro e he; rw [e4] at he; exact he
      · intro g hg
        injection hg with hg2
        subst hg2
        have hfn : (descOf s' s'.clockHand).frameNo = s'.clockHand := by
          have := hinv.2.2.2.2.1 s'.clockHand (by rw [e1]; exact e6)
          exact this
        rw [hfn] at hfno
        subst hfno
        exact ⟨by rw [e1]; exact e6, by rw [hv]⟩
    | exceeded s' =>
      simp only [scanState] at e1 e2 e3 e4 e5 e6
      simp only [] at h
      injection h with h2
      injection h2 with hA hB
      subst hA
      subst hB
      have hinv : Inv s' := inv_transport hs e1 e2 (by rw [e3]) e4 (by rw [e1]; exact e6)
      refine ⟨hinv, ?_, e1, ?_⟩
      · intro e he; rw [e4] at he; exact he
      · intro g hg; cases hg
    | victim s' =>
      simp only [scanState] at e1 e2 e3 e4 e5 e6
      obtain ⟨hv, hrf, hpin⟩ := hvict s' rfl
      have hinv : Inv s' := inv_transport hs e1 e2 (by rw [e3]) e4 (by rw [e1]; exact e6)
      have hclk : s'.clockHand < s'.numBufs := by rw [e1]; exact e6
      obtain ⟨hfne, hment⟩ := hinv.2.2.2.2.2.1 s'.clockHand hclk hv
      obtain ⟨f0, hfid⟩ := Option.ne_none_iff_exists'.mp hfne
      have hkey : ((descOf s' s'.clockHand).fileId.getD 0, (descOf s' s'.clockHand).pageNo)
          = (f0, (descOf s' s'.clockHand).pageNo) := by rw [hfid]; rfl
      rw [hkey] at hment
      have hlk : lookupKey s'.hashTable (f0, (descOf s' s'.clockHand).pageNo)
          = some s'.clockHand := mem_lookupKey_of_nodup hinv.2.2.2.2.2.2.2.1 hment
      simp only [hfid] at h
      by_cases hdirty : (descOf s' s'.clockHand).dirty = true
      · rw [if_pos hdirty] at h
        have hinv2 : Inv { s' with fs := fsWrite s'.fs ((some f0).getD 0) (poolOf s' s'.clockHand) } :=
          inv_set_fs hinv _
        have hcont : containsKey
            { s' with fs := fsWrite s'.fs ((some f0).getD 0) (poolOf s' s'.clockHand) }.hashTable
            (f0, (descOf s' s'.clockHand).pageNo) = true := by
          show containsKey s'.hashTable (f0, (descOf s' s'.clockHand).pageNo) = true
          unfold containsKey
          rw [hlk]
          rfl
        rw [if_pos hcont] at h
        injection h with h2
        injection h2 with hA hB
        subst hA
        subst hB
        have hevict : Inv (evictAt
            { s' with fs := fsWrite s'.fs ((some f0).getD 0) (poolOf s' s'.clockHand) }
            s'.clockHand (f0, (descOf s' s'.clockHand).pageNo)) :=
          inv_evictAt hinv2 hclk hv hfid rfl
        refine ⟨hevict, ?_, e1, ?_⟩
        · intro e he
          have := mem_of_mem_removeKey he
          rw [← e4]
          exact this
        · intro g hg
          injection hg with hg2
          have hfn : (descOf s' s'.clockHand).frameNo = s'.clockHand :=
            hinv.2.2.2.2.1 s'.clockHand hclk
          rw [hfn] at hg2
          subst hg2
          constructor
          · exact hclk
          · have : descOf (evictAt
                { s' with fs := fsWrite s'.fs ((some f0).getD 0) (poolOf s' s'.clockHand) }
                s'.clockHand (f0, (descOf s' s'.clockHand).pageNo)) s'.clockHand
                = clearDesc (descOf s' s'.clockHand) := by
              show (s'.bufDescTable.set s'.clockHand
                  (clearDesc (descOf s' s'.clockHand))).getD s'.clockHand default
                = clearDesc (descOf s' s'.clockHand)
              exact getD_set_self (by rw [hinv.2.1]; exact hclk)
            rw [this]
            rfl
      · rw [if_neg hdirty] at h
        have hcont : containsKey s'.hashTable (f0, (descOf s' s'.clockHand).pageNo) = true := by
          unfold containsKey
          rw [hlk]
          rfl
        rw [if_pos hcont] at h
        injection h with h2
        injection h2 with hA hB
        subst hA
        subst hB
        have hevict : Inv (evictAt s' s'.clockHand (f0, (descOf s' s'.clockHand).pageNo)) :=
          inv_evictAt hinv hclk hv hfid rfl
        refine ⟨hevict, ?_, e1, ?_⟩
        · intro e he
          have := mem_of_mem_removeKey he
          rw [← e4]
          exact this
        · intro g hg
          injection hg with hg2
          have hfn : (descOf s' s'.clockHand).frameNo = s'.clockHand :=
            hinv.2.2.2.2.1 s'.clockHand hclk
          rw [hfn] at hg2
          subst hg2
          constructor
          · exact hclk
          · have : descOf (evictAt s' s'.clockHand (f0, (descOf s' s'.clockHand).pageNo))
                s'.clockHand = clearDesc (descOf s' s'.clockHand) := by
              show (s'.bufDescTable.set s'.clockHand
                  (clearDesc (descOf s' s'.clockHand))).getD s'.clockHand default
                = clearDesc (descOf s' s'.clockHand)
              exact getD_set_self (by rw [hinv.2.1]; exact hclk)
            rw [this]
            rfl

theorem getD_eq_default_of_le {α : Type} {l : List α} {i : Nat} {d : α}
    (h : l.length ≤ i) : l.getD i d = d := by
  induction l generalizing i with
  | nil => cases i <;> rfl
  | cons x xs ih =>
    cases i with
    | zero => simp at h
    | succ n =>
      have : xs.length ≤ n := by simpa using h
      simpa [List.getD] using ih this

/-- A valid frame is always in range. -/
theorem valid_lt {s : BufState} (hs : Inv s) {i : Nat}
    (hv : (descOf s i).valid = true) : i < s.numBufs := by
  by_contra hge
  have hlen : s.bufDescTable.length ≤ i := by rw [hs.2.1]; omega
  have : descOf s i = default := getD_eq_default_of_le hlen
  rw [this] at hv
  simp [default] at hv

theorem readPage_inv {fuel : Nat} {s : BufState} {fid pno : Nat} {pg : Handle}
    {res : BufState × Handle × Option BufErr}
    (hs : Inv s) (h : readPage fuel s fid pno pg = some res) : Inv res.1 := by
  unfold readPage at h
  cases hlk : lookupKey s.hashTable (fid, pno) with
  | some f =>
    rw [hlk] at h
    simp only [] at h
    injection h with h2
    subst h2
    obtain ⟨hflt, hfv, -, -⟩ := hs.2.2.2.2.2.2.1 ((fid, pno), f) (lookupKey_mem hlk)
    exact inv_update_flags hs hflt rfl rfl rfl rfl (fun _ => hfv) (fun _ => hfv)
  | none =>
    rw [hlk] at h
    cases hab : allocBuf fuel s with
    | none => rw [hab] at h; simp at h
    | some p =>
      rw [hab] at h
      obtain ⟨sb, rb⟩ := p
      obtain ⟨hinv1, hsub, hnum, hok⟩ := allocBuf_inv hs hab
      cases rb with
      | error e =>
        simp only [] at h
        injection h with h2
        subst h2
        exact hinv1
      | ok f =>
        obtain ⟨hflt, hfnv⟩ := hok f rfl
        have hinv2 : Inv (writeThrough sb pg (fsRead sb.fs fid pno)) :=
          inv_writeThrough hinv1 _ _
        have hlk2 : lookupKey (writeThrough sb pg (fsRead sb.fs fid pno)).hashTable
            (fid, pno) = none := by
          rw [writeThrough_hashTable]
          cases hx : lookupKey sb.hashTable (fid, pno) with
          | none => rfl
          | some v =>
            have hmem := hsub _ (lookupKey_mem hx)
            rw [lookupKey_none_iff] at hlk
            exact absurd rfl (hlk _ hmem)
        have hcont : ¬ (containsKey (writeThrough sb pg (fsRead sb.fs fid pno)).hashTable
            (fid, pno) = true) := by
          unfold containsKey
          rw [hlk2]
          simp
        simp only [] at h
        rw [if_neg hcont] at h
        injection h with h2
        subst h2
        refine inv_installAt hinv2 ?_ ?_ hlk2
        · rw [writeThrough_numBufs]; exact hflt
        · rw [descOf_writeThrough]; exact hfnv

theorem allocPage_inv {fuel : Nat} {s : BufState} {fid pnoIn : Nat} {pg : Handle}
    {res : BufState × Nat × Handle × Option BufErr}
    (hs : Inv s) (h : allocPage fuel s fid pnoIn pg = some res) : Inv res.1 := by
  unfold allocPage at h
  cases hab : allocBuf fuel s with
  | none => rw [hab] at h; simp at h
  | some p =>
    rw [hab] at h
    obtain ⟨sb, rb⟩ := p
    obtain ⟨hinv1, hsub, hnum, hok⟩ := allocBuf_inv hs hab
    cases rb with
    | error e =>
      simp only [] at h
      injection h with h2
      subst h2
      exact hinv1
    | ok f =>
      obtain ⟨hflt, hfnv⟩ := hok f rfl
      have hinv2 : Inv { sb with
            fs := (fsAlloc sb.fs fid).1
            bufPool := sb.bufPool.set f (fsAlloc sb.fs fid).2 } := by
        refine inv_transport hinv1 rfl rfl ?_ rfl hinv1.2.2.2.1
        simp [List.length_set]
      simp only [] at h
      by_cases hc : containsKey sb.hashTable (fid, pnoIn) = true
      · rw [if_pos hc] at h
        injection h with h2
        subst h2
        exact hinv2
      · rw [if_neg hc] at h
        injection h with h2
        subst h2
        have hlk2 : lookupKey sb.hashTable (fid, pnoIn) = none := by
          unfold containsKey at hc
          cases hx : lookupKey sb.hashTable (fid, pnoIn) with
          | none => rfl
          | some v => rw [hx] at hc; simp at hc
        exact inv_installAt hinv2 hflt hfnv hlk2

theorem unPinPage_inv {s : BufState} {fid pno : Nat} {dr : Bool}
    (hs : Inv s) : Inv (unPinPage s fid pno dr).1 := by
  unfold unPinPage
  cases hlk : lookupKey s.hashTable (fid, pno) with
  | none => exact hs
  | some f =>
    simp only []
    by_cases hp : (descOf s f).pinCnt = 0
    · rw [if_pos hp]; exact hs
    · rw [if_neg hp]
      obtain ⟨hflt, hfv, -, -⟩ := hs.2.2.2.2.2.2.1 ((fid, pno), f) (lookupKey_mem hlk)
      exact inv_update_flags hs hflt rfl rfl rfl rfl (fun _ => hfv) (fun _ => hfv)

theorem flushWB_numBufs (fid : Nat) (s : BufState) (i : Nat) :
    (flushWB fid s i).numBufs = s.numBufs := by
  unfold flushWB
  by_cases hd : (descOf s i).dirty = true
  · rw [if_pos hd]
  · rw [if_neg hd]

theorem flushWB_hashTable (fid : Nat) (s : BufState) (i : Nat) :
    (flushWB fid s i).hashTable = s.hashTable := by
  unfold flushWB
  by_cases hd : (descOf s i).dirty = true
  · rw [if_pos hd]
  · rw [if_neg hd]

theorem flushWB_desc_self {fid : Nat} {s : BufState} {i : Nat}
    (hilen : i < s.bufDescTable.length) :
    descOf (flushWB fid s i) i = { descOf s i with dirty := false } := by
  unfold flushWB
  by_cases hd : (descOf s i).dirty = true
  · rw [if_pos hd]
    show (s.bufDescTable.set i _).getD i default = _
    exact getD_set_self hilen
  · rw [if_neg hd]
    have hdf : (descOf s i).dirty = false := by
      revert hd; cases (descOf s i).dirty <;> simp
    show descOf s i = { descOf s i with dirty := false }
    cases hx : descOf s i
    rw [hx] at hdf
    simp at hdf
    rw [hdf]

theorem flushWB_inv {s : BufState} {fid i : Nat} (hs : Inv s) (hilt : i < s.numBufs) :
    Inv (flushWB fid s i) := by
  unfold flushWB
  by_cases hd : (descOf s i).dirty = true
  · rw [if_pos hd]
    exact inv_set_fs (@inv_update_flags s hs i hilt ({ descOf s i with dirty := false })
      rfl rfl rfl rfl (fun hx => hs.2.2.2.2.2.2.2.2.1 i hilt hx) (by simp)) _
  · rw [if_neg hd]
    exact hs

theorem flushFrame_inv {s : BufState} {fid i : Nat} (hs : Inv s) :
    Inv (flushFrame fid s i).1 := by
  unfold flushFrame
  by_cases hm : (descOf s i).fileId = some fid
  · rw [if_pos hm]
    by_cases hv2 : (descOf s i).valid = false
    · rw [if_pos hv2]
      exact hs
    · rw [if_neg hv2]
      have hvt : (descOf s i).valid = true := by
        revert hv2; cases (descOf s i).valid <;> simp
      have hilt : i < s.numBufs := valid_lt hs hvt
      have hilen : i < s.bufDescTable.length := by rw [hs.2.1]; exact hilt
      by_cases hp : (descOf s i).pinCnt ≠ 0
      · rw [if_pos hp]
        exact hs
      · rw [if_neg hp]
        have hwb : Inv (flushWB fid s i) := flushWB_inv hs hilt
        by_cases hc : containsKey (flushWB fid s i).hashTable
            (fid, (descOf s i).pageNo) = true
        · rw [if_pos hc]
          show Inv (evictAt (flushWB fid s i) i (fid, (descOf s i).pageNo))
          have hdself := @flushWB_desc_self fid s i hilen
          refine inv_evictAt hwb ?_ ?_ ?_ ?_
          · rw [flushWB_numBufs]; exact hilt
          · rw [hdself]; exact hvt
          · rw [hdself]; exact hm
          · rw [hdself]
        · rw [if_neg hc]
          exact hwb
  · rw [if_neg hm]
    exact hs

theorem flushIter_inv {fid : Nat} : ∀ {fuel i : Nat} {s : BufState}, Inv s →
    Inv (flushIter fid i fuel s).1 := by
  intro fuel
  induction fuel with
  | zero => intro i s hs; exact hs
  | succ fuel ih =>
    intro i s hs
    rw [flushIter]
    cases hff : flushFrame fid s i with
    | mk s1 e =>
      have hinv1 : Inv s1 := by
        have := @flushFrame_inv s fid i hs
        rw [hff] at this
        exact this
      cases e with
      | none => simp only []; exact ih hinv1
      | some err => simp only []; exact hinv1

theorem flushFile_inv {s : BufState} {fid : Nat} (hs : Inv s) :
    Inv (flushFile s fid).1 :=
  flushIter_inv hs

theorem disposePage_inv {s : BufState} {fid pno : Nat} (hs : Inv s) :
    Inv (disposePage s fid pno) := by
  unfold disposePage
  cases hlk : lookupKey s.hashTable (fid, pno) with
  | none => simp only []; exact inv_set_fs hs _
  | some f =>
    simp only []
    obtain ⟨hflt, hfv, hffid, hfpg⟩ := hs.2.2.2.2.2.2.1 ((fid, pno), f) (lookupKey_mem hlk)
    exact inv_set_fs (inv_evictAt hs hflt hfv hffid hfpg) _

theorem initState_inv {n : Nat} (hn : 0 < n) (fs0 : FileSys) : Inv (initState n fs0) := by
  have hdesc : ∀ i, i < n → descOf (initState n fs0) i = emptyDesc i := by
    intro i hi
    show ((List.range n).map emptyDesc).getD i default = emptyDesc i
    exact getD_map_range hi _ _
  refine ⟨hn, ?_, ?_, ?_, ?_, ?_, ?_, ?_, ?_, ?_⟩
  · simp [initState]
  · simp [initState]
  · show n - 1 < n
    omega
  · intro i hi
    rw [hdesc i hi]
    rfl
  · intro i hi hv
    rw [hdesc i hi] at hv
    simp [emptyDesc] at hv
  · intro e he
    simp [initState] at he
  · simp [initState, keysNodup]
  · intro i hi hp
    rw [hdesc i hi] at hp
    simp [emptyDesc] at hp
  · intro i hi hp
    rw [hdesc i hi] at hp
    simp [emptyDesc] at hp

theorem stepOp_inv {fuel : Nat} {s s' : BufState} {op : Op}
    (hs : Inv s) (h : stepOp fuel s op = some s') : Inv s' := by
  cases op with
  | read fid pno pg =>
    simp only [stepOp] at h
    cases hr : readPage fuel s fid pno pg with
    | none => rw [hr] at h; simp at h
    | some res =>
      rw [hr] at h
      simp at h
      subst h
      exact readPage_inv hs hr
  | alloc fid pnoIn pg =>
    simp only [stepOp] at h
    cases hr : allocPage fuel s fid pnoIn pg with
    | none => rw [hr] at h; simp at h
    | some res =>
      rw [hr] at h
      simp at h
      subst h
      exact allocPage_inv hs hr
  | unpin fid pno dr =>
    simp only [stepOp] at h
    injection h with h2
    subst h2
    exact unPinPage_inv hs
  | flush fid =>
    simp only [stepOp] at h
    injection h with h2
    subst h2
    exact flushFile_inv hs
  | dispose fid pno =>
    simp only [stepOp] at h
    injection h with h2
    subst h2
    exact disposePage_inv hs

theorem runOps_inv {fuel : Nat} : ∀ {ops : List Op} {s s' : BufState},
    Inv s → runOps fuel ops s = some s' → Inv s' := by
  intro ops
  induction ops with
  | nil =>
    intro s s' hs h
    simp only [runOps] at h
    injection h with h2
    subst h2
    exact hs
  | cons op rest ih =>
    intro s s' hs h
    simp only [runOps] at h
    cases hst : stepOp fuel s op with
    | none => rw [hst] at h; simp at h
    | some s1 =>
      rw [hst] at h
      exact ih (stepOp_inv hs hst) h

theorem flushWB_bufPool (fid : Nat) (s : BufState) (i : Nat) :
    (flushWB fid s i).bufPool = s.bufPool := by
  unfold flushWB
  by_cases hd : (descOf s i).dirty = true
  · rw [if_pos hd]
  · rw [if_neg hd]

theorem flushWB_clockHand (fid : Nat) (s : BufState) (i : Nat) :
    (flushWB fid s i).clockHand = s.clockHand := by
  unfold flushWB
  by_cases hd : (descOf s i).dirty = true
  · rw [if_pos hd]
  · rw [if_neg hd]

theorem flushWB_table_length (fid : Nat) (s : BufState) (i : Nat) :
    (flushWB fid s i).bufDescTable.length = s.bufDescTable.length := by
  unfold flushWB
  by_cases hd : (descOf s i).dirty = true
  · rw [if_pos hd]; simp [List.length_set]
  · rw [if_neg hd]

theorem flushWB_desc_ne (fid : Nat) (s : BufState) (i : Nat) {j : Nat} (hij : i ≠ j) :
    descOf (flushWB fid s i) j = descOf s j := by
  unfold flushWB
  by_cases hd : (descOf s i).dirty = true
  · rw [if_pos hd]
    show (s.bufDescTable.set i _).getD j default = descOf s j
    rw [getD_set_ne hij]
    rfl
  · rw [if_neg hd]

theorem flushWB_events (fid : Nat) (s : BufState) (i : Nat) :
    (flushWB fid s i).fs.events = s.fs.events ++
      (if (descOf s i).dirty = true then
        [Ev.writePageEv fid (poolOf s i).page_number (poolOf s i).data] else []) := by
  unfold flushWB
  by_cases hd : (descOf s i).dirty = true
  · rw [if_pos hd, if_pos hd]
    rfl
  · rw [if_neg hd, if_neg hd]
    rw [List.append_nil]

theorem flushWB_nextPage (fid : Nat) (s : BufState) (i : Nat) :
    (flushWB fid s i).fs.nextPage = s.fs.nextPage := by
  unfold flushWB
  by_cases hd : (descOf s i).dirty = true
  · rw [if_pos hd]; simp [fsWrite]
  · rw [if_neg hd]

/-- For a frame of another file, the flushFile loop body does nothing. -/
theorem flushFrame_step_skip {s : BufState} {fid i : Nat}
    (hm : ¬(descOf s i).fileId = some fid) :
    flushFrame fid s i = (s, none) := by
  unfold flushFrame
  rw [if_neg hm]

/-- For a matching valid unpinned frame and under the invariant, the flushFile
loop body succeeds, writes back the pool page exactly when the frame is dirty,
clears the descriptor, removes exactly the frame's index entry, and touches
nothing else. -/
theorem flushFrame_step_match {s : BufState} {fid i : Nat} (hs : Inv s)
    (hm : (descOf s i).fileId = some fid) (hv : (descOf s i).valid = true)
    (hp : (descOf s i).pinCnt = 0) :
    (flushFrame fid s i).2 = none ∧
    descOf (flushFrame fid s i).1 i = clearDesc (descOf s i) ∧
    (∀ j, j ≠ i → descOf (flushFrame fid s i).1 j = descOf s j) ∧
    (flushFrame fid s i).1.numBufs = s.numBufs ∧
    (flushFrame fid s i).1.bufPool = s.bufPool ∧
    (flushFrame fid s i).1.clockHand = s.clockHand ∧
    (∀ e, e ∈ (flushFrame fid s i).1.hashTable ↔
      e ∈ s.hashTable ∧ e.1 ≠ (fid, (descOf s i).pageNo)) ∧
    (flushFrame fid s i).1.fs.events = s.fs.events ++
      (if (descOf s i).dirty = true then
        [Ev.writePageEv fid (poolOf s i).page_number (poolOf s i).data] else []) ∧
    (flushFrame fid s i).1.fs.nextPage = s.fs.nextPage := by
  have hilt : i < s.numBufs := valid_lt hs hv
  have hilen : i < s.bufDescTable.length := by rw [hs.2.1]; exact hilt
  have hwblen : i < (flushWB fid s i).bufDescTable.length := by
    rw [flushWB_table_length]; exact hilen
  obtain ⟨-, hment⟩ := hs.2.2.2.2.2.1 i hilt hv
  have hkeq : ((descOf s i).fileId.getD 0, (descOf s i).pageNo)
      = (fid, (descOf s i).pageNo) := by rw [hm]; rfl
  rw [hkeq] at hment
  have hlk : lookupKey s.hashTable (fid, (descOf s i).pageNo) = some i :=
    mem_lookupKey_of_nodup hs.2.2.2.2.2.2.2.1 hment
  have hcont : containsKey (flushWB fid s i).hashTable
      (fid, (descOf s i).pageNo) = true := by
    rw [flushWB_hashTable]
    unfold containsKey
    rw [hlk]
    rfl
  have hvne : ¬((descOf s i).valid = false) := by rw [hv]; simp
  have hpne : ¬((descOf s i).pinCnt ≠ 0) := by rw [hp]; simp
  have hres : flushFrame fid s i
      = (evictAt (flushWB fid s i) i (fid, (descOf s i).pageNo), none) := by
    unfold flushFrame
    rw [if_pos hm, if_neg hvne, if_neg hpne, if_pos hcont]
  rw [hres]
  have hdself := @flushWB_desc_self fid s i hilen
  refine ⟨rfl, ?_, ?_, ?_, ?_, ?_, ?_, ?_, ?_⟩
  · show ((flushWB fid s i).bufDescTable.set i
        (clearDesc (descOf (flushWB fid s i) i))).getD i default = clearDesc (descOf s i)
    rw [getD_set_self hwblen, hdself]
    rfl
  · intro j hj
    show ((flushWB fid s i).bufDescTable.set i
        (clearDesc (descOf (flushWB fid s i) i))).getD j default = descOf s j
    rw [getD_set_ne (fun hx => hj hx.symm)]
    exact flushWB_desc_ne fid s i (fun hx => hj hx.symm)
  · exact flushWB_numBufs fid s i
  · exact flushWB_bufPool fid s i
  · exact flushWB_clockHand fid s i
  · intro e
    show e ∈ removeKey (flushWB fid s i).hashTable (fid, (descOf s i).pageNo) ↔ _
    rw [flushWB_hashTable]
    exact mem_removeKey hs.2.2.2.2.2.2.2.1
  · exact flushWB_events fid s i
  · exact flushWB_nextPage fid s i

/-- For a matching frame that is invalid or pinned, the flushFile loop body
raises BadBuffer (invalid, checked first) or PagePinned (pinned) and changes
nothing. -/
theorem flushFrame_step_bad {s : BufState} {fid i : Nat}
    (hm : (descOf s i).fileId = some fid)
    (hbad : (descOf s i).valid = false ∨ 0 < (descOf s i).pinCnt) :
    flushFrame fid s i = (s, some (if (descOf s i).valid = false
      then BufErr.badBuffer i else BufErr.pagePinned)) := by
  unfold flushFrame
  by_cases hv : (descOf s i).valid = false
  · rw [if_pos hm, if_pos hv, if_pos hv]
  · rw [if_pos hm, if_neg hv, if_neg hv]
    have hpin : 0 < (descOf s i).pinCnt := by
      rcases hbad with hb | hb
      · exact absurd hb hv
      · exact hb
    rw [if_pos (by omega : (descOf s i).pinCnt ≠ 0)]

/-- The write-back trace only depends on the window's descriptors and pool
pages. -/
theorem flushWrites_congr {fid : Nat} {s t : BufState} : ∀ {fuel i : Nat},
    (∀ j, i ≤ j → j < i + fuel → descOf t j = descOf s j ∧ poolOf t j = poolOf s j) →
    flushWrites fid t i fuel = flushWrites fid s i fuel := by
  intro fuel
  induction fuel with
  | zero => intro i _; rfl
  | succ fuel ih =>
    intro i hcong
    rw [flushWrites, flushWrites]
    obtain ⟨hd, hpool⟩ := hcong i (Nat.le_refl i) (by omega)
    rw [hd, hpool]
    rw [ih (fun j hj1 hj2 => hcong j (by omega) (by omega))]

theorem flushIter_succ_none {fid i fuel : Nat} {s : BufState}
    (h : (flushFrame fid s i).2 = none) :
    flushIter fid i (fuel + 1) s = flushIter fid (i + 1) fuel (flushFrame fid s i).1 := by
  rw [flushIter]
  have hpair : flushFrame fid s i = ((flushFrame fid s i).1, none) := Prod.ext rfl h
  rw [hpair]

theorem flushIter_succ_some {fid i fuel : Nat} {s : BufState} {e : BufErr}
    (h : (flushFrame fid s i).2 = some e) :
    flushIter fid i (fuel + 1) s = ((flushFrame fid s i).1, some e) := by
  rw [flushIter]
  have hpair : flushFrame fid s i = ((flushFrame fid s i).1, some e) := Prod.ext rfl h
  rw [hpair]

theorem poolOf_congr {s t : BufState} (h : t.bufPool = s.bufPool) (j : Nat) :
    poolOf t j = poolOf s j := by
  unfold poolOf
  rw [h]

theorem flushWrites_head_match {fid : Nat} {s : BufState} {i fuel : Nat}
    (hm : (descOf s i).fileId = some fid) :
    flushWrites fid s i (fuel + 1)
      = (if (descOf s i).dirty = true then
          [Ev.writePageEv fid (poolOf s i).page_number (poolOf s i).data] else [])
        ++ flushWrites fid s (i + 1) fuel := by
  rw [flushWrites]
  congr 1
  by_cases hd : (descOf s i).dirty = true
  · rw [if_pos hd, if_pos ⟨hm, hd⟩]
  · rw [if_neg hd, if_neg (fun hx => hd hx.2)]

theorem flushWrites_head_skip {fid : Nat} {s : BufState} {i fuel : Nat}
    (hm : ¬(descOf s i).fileId = some fid) :
    flushWrites fid s i (fuel + 1) = flushWrites fid s (i + 1) fuel := by
  rw [flushWrites, if_neg (fun hx => hm hx.1), List.nil_append]

/-- Master lemma for a successful flush window: if under the invariant every
matching frame in `[i, i+fuel)` is valid and unpinned, the scan over the window
raises nothing, clears exactly the matching frames, removes exactly their index
entries, leaves every other frame, entry and buffer untouched, and emits the
write-back trace of the dirty matching frames in increasing frame order. -/
theorem flushIter_success {fid : Nat} : ∀ {fuel i : Nat} {s : BufState},
    Inv s →
    (∀ j, i ≤ j → j < i + fuel → (descOf s j).fileId = some fid →
      (descOf s j).valid = true ∧ (descOf s j).pinCnt = 0) →
    (flushIter fid i fuel s).2 = none ∧
    (flushIter fid i fuel s).1.numBufs = s.numBufs ∧
    (flushIter fid i fuel s).1.bufPool = s.bufPool ∧
    (flushIter fid i fuel s).1.clockHand = s.clockHand ∧
    (∀ j, i ≤ j → j < i + fuel → (descOf s j).fileId = some fid →
      descOf (flushIter fid i fuel s).1 j = clearDesc (descOf s j)) ∧
    (∀ j, j < i ∨ i + fuel ≤ j ∨ ¬(descOf s j).fileId = some fid →
      descOf (flushIter fid i fuel s).1 j = descOf s j) ∧
    (∀ e, e ∈ (flushIter fid i fuel s).1.hashTable ↔ e ∈ s.hashTable ∧
      (∀ j, i ≤ j → j < i + fuel → (descOf s j).fileId = some fid →
        e.1 ≠ (fid, (descOf s j).pageNo))) ∧
    (flushIter fid i fuel s).1.fs.events = s.fs.events ++ flushWrites fid s i fuel ∧
    (flushIter fid i fuel s).1.fs.nextPage = s.fs.nextPage := by
  intro fuel
  induction fuel with
  | zero =>
    intro i s hs hok
    refine ⟨rfl, rfl, rfl, rfl, ?_, ?_, ?_, ?_, rfl⟩
    · intro j hj1 hj2
      exact absurd hj2 (by omega)
    · intro j _
      rfl
    · intro e
      constructor
      · intro he
        exact ⟨he, fun j hj1 hj2 => absurd hj2 (by omega)⟩
      · intro he
        exact he.1
    · rw [flushWrites, List.append_nil]
      rfl
  | succ fuel ih =>
    intro i s hs hok
    by_cases hm : (descOf s i).fileId = some fid
    · obtain ⟨hv, hp⟩ := hok i (Nat.le_refl i) (by omega) hm
      obtain ⟨f1, f2, f3, f4, f5, f6, f7, f8, f9⟩ := flushFrame_step_match hs hm hv hp
      have hstep := @flushIter_succ_none fid i fuel s f1
      have hinv1 : Inv (flushFrame fid s i).1 := flushFrame_inv hs
      have hok1 : ∀ j, i + 1 ≤ j → j < (i + 1) + fuel →
          (descOf (flushFrame fid s i).1 j).fileId = some fid →
          (descOf (flushFrame fid s i).1 j).valid = true ∧
          (descOf (flushFrame fid s i).1 j).pinCnt = 0 := by
        intro j hj1 hj2 hjm
        rw [f3 j (by omega)] at hjm ⊢
        exact hok j (by omega) (by omega) hjm
      obtain ⟨g1, g2, g3, g4, g5, g6, g7, g8, g9⟩ := ih hinv1 hok1
      rw [hstep]
      refine ⟨g1, ?_, ?_, ?_, ?_, ?_, ?_, ?_, ?_⟩
      · rw [g2, f4]
      · rw [g3, f5]
      · rw [g4, f6]
      · intro j hj1 hj2 hjm
        by_cases hji : j = i
        · subst hji
          rw [g6 j (Or.inl (by omega)), f2]
        · rw [g5 j (by omega) (by omega) (by rw [f3 j hji]; exact hjm), f3 j hji]
      · intro j hj
        rcases hj with hj | hj | hj
        · rw [g6 j (Or.inl (by omega)), f3 j (by omega)]
        · rw [g6 j (Or.inr (Or.inl (by omega))), f3 j (by omega)]
        · have hji : j ≠ i := fun hx => hj (hx ▸ hm)
          rw [g6 j (Or.inr (Or.inr (by rw [f3 j hji]; exact hj))), f3 j hji]
      · intro e
        rw [g7 e]
        constructor
        · rintro ⟨he1, he2⟩
          obtain ⟨hes, hexcl⟩ := (f7 e).mp he1
          refine ⟨hes, ?_⟩
          intro j hj1 hj2 hjm
          by_cases hji : j = i
          · subst hji
            exact hexcl
          · have hx := he2 j (by omega) (by omega) (by rw [f3 j hji]; exact hjm)
            rw [f3 j hji] at hx
            exact hx
        · rintro ⟨hes, hall⟩
          refine ⟨(f7 e).mpr ⟨hes, hall i (by omega) (by omega) hm⟩, ?_⟩
          intro j hj1 hj2 hjm
          have hji : j ≠ i := by omega
          rw [f3 j hji] at hjm
          rw [f3 j hji]
          exact hall j (by omega) (by omega) hjm
      · rw [g8, f8, List.append_assoc]
        congr 1
        rw [flushWrites_head_match hm]
        congr 1
        refine flushWrites_congr ?_
        intro j hj1 hj2
        exact ⟨f3 j (by omega), poolOf_congr f5 j⟩
      · rw [g9, f9]
    · have hskip := @flushFrame_step_skip s fid i hm
      have hstep : flushIter fid i (fuel + 1) s = flushIter fid (i + 1) fuel s := by
        rw [flushIter_succ_none (by rw [hskip]), hskip]
      have hok1 : ∀ j, i + 1 ≤ j → j < (i + 1) + fuel → (descOf s j).fileId = some fid →
          (descOf s j).valid = true ∧ (descOf s j).pinCnt = 0 := by
        intro j hj1 hj2 hjm
        exact hok j (by omega) (by omega) hjm
      obtain ⟨g1, g2, g3, g4, g5, g6, g7, g8, g9⟩ := ih hs hok1
      rw [hstep]
      refine ⟨g1, g2, g3, g4, ?_, ?_, ?_, ?_, g9⟩
      · intro j hj1 hj2 hjm
        by_cases hji : j = i
        · subst hji
          exact absurd hjm hm
        · exact g5 j (by omega) (by omega) hjm
      · intro j hj
        rcases hj with hj | hj | hj
        · exact g6 j (Or.inl (by omega))
        · exact g6 j (Or.inr (Or.inl (by omega)))
        · exact g6 j (Or.inr (Or.inr hj))
      · intro e
        rw [g7 e]
        constructor
        · rintro ⟨hes, hall⟩
          refine ⟨hes, ?_⟩
          intro j hj1 hj2 hjm
          by_cases hji : j = i
          · subst hji
            exact absurd hjm hm
          · exact hall j (by omega) (by omega) hjm
        · rintro ⟨hes, hall⟩
          exact ⟨hes, fun j hj1 hj2 hjm => hall j (by omega) (by omega) hjm⟩
      · rw [g8, flushWrites_head_skip hm]

/-- Master lemma for a failing flush window: if the frame `iStart + k` is the
first matching frame of the window that is invalid or pinned, the scan stops
there with BadBuffer (invalid, which the source checks first) or PagePinned
(pinned), the frames before it are processed as in the success case, and the
frames from the failing position on — the failing frame included — are
untouched. -/
theorem flushIter_failure {fid : Nat} : ∀ {k : Nat} {iStart fuel : Nat} {s : BufState},
    Inv s → k < fuel →
    (descOf s (iStart + k)).fileId = some fid →
    ((descOf s (iStart + k)).valid = false ∨ 0 < (descOf s (iStart + k)).pinCnt) →
    (∀ j, iStart ≤ j → j < iStart + k → (descOf s j).fileId = some fid →
      (descOf s j).valid = true ∧ (descOf s j).pinCnt = 0) →
    (flushIter fid iStart fuel s).2 = some (if (descOf s (iStart + k)).valid = false
      then BufErr.badBuffer (iStart + k) else BufErr.pagePinned) ∧
    (∀ j, iStart + k ≤ j → descOf (flushIter fid iStart fuel s).1 j = descOf s j) ∧
    (∀ j, j < iStart → descOf (flushIter fid iStart fuel s).1 j = descOf s j) ∧
    (∀ j, iStart ≤ j → j < iStart + k → (descOf s j).fileId = some fid →
      descOf (flushIter fid iStart fuel s).1 j = clearDesc (descOf s j)) ∧
    (∀ j, iStart ≤ j → j < iStart + k → ¬(descOf s j).fileId = some fid →
      descOf (flushIter fid iStart fuel s).1 j = descOf s j) ∧
    (flushIter fid iStart fuel s).1.fs.events
      = s.fs.events ++ flushWrites fid s iStart k ∧
    (flushIter fid iStart fuel s).1.bufPool = s.bufPool := by
  intro k
  induction k with
  | zero =>
    intro iStart fuel s hs hk hm hbad hfirst
    obtain ⟨fuel2, rfl⟩ : ∃ f2, fuel = f2 + 1 := ⟨fuel - 1, by omega⟩
    rw [Nat.add_zero] at hm hbad
    have hbadstep := flushFrame_step_bad hm hbad
    have hres : flushIter fid iStart (fuel2 + 1) s
        = (s, some (if (descOf s iStart).valid = false
            then BufErr.badBuffer iStart else BufErr.pagePinned)) := by
      rw [flushIter_succ_some (by rw [hbadstep]), hbadstep]
    rw [hres]
    rw [Nat.add_zero]
    refine ⟨rfl, ?_, ?_, ?_, ?_, ?_, rfl⟩
    · intro j _
      rfl
    · intro j _
      rfl
    · intro j hj1 hj2
      exact absurd hj2 (by omega)
    · intro j hj1 hj2
      exact absurd hj2 (by omega)
    · rw [flushWrites, List.append_nil]
  | succ k ih =>
    intro iStart fuel s hs hk hm hbad hfirst
    obtain ⟨fuel2, rfl⟩ : ∃ f2, fuel = f2 + 1 := ⟨fuel - 1, by omega⟩
    have harith : iStart + 1 + k = iStart + (k + 1) := by omega
    by_cases hmi : (descOf s iStart).fileId = some fid
    · obtain ⟨hv, hp⟩ := hfirst iStart (Nat.le_refl iStart) (by omega) hmi
      obtain ⟨f1, f2, f3, f4, f5, f6, f7, f8, f9⟩ := flushFrame_step_match hs hmi hv hp
      have hstep := @flushIter_succ_none fid iStart fuel2 s f1
      have hinv1 : Inv (flushFrame fid s iStart).1 := flushFrame_inv hs
      obtain ⟨g1, g2, g3, g4, g5, g6, g7⟩ := @ih (iStart + 1) fuel2
        (flushFrame fid s iStart).1 hinv1 (by omega)
        (by rw [harith, f3 _ (by omega)]; exact hm)
        (by rw [harith, f3 _ (by omega)]; exact hbad)
        (by
          intro j hj1 hj2 hjm
          rw [f3 j (by omega)] at hjm ⊢
          exact hfirst j (by omega) (by omega) hjm)
      rw [hstep]
      rw [harith] at g1 g2
      rw [f3 _ (by omega : iStart + (k + 1) ≠ iStart)] at g1
      refine ⟨g1, ?_, ?_, ?_, ?_, ?_, ?_⟩
      · intro j hj
        rw [g2 j hj, f3 j (by omega)]
      · intro j hj
        rw [g3 j (by omega), f3 j (by omega)]
      · intro j hj1 hj2 hjm
        by_cases hji : j = iStart
        · subst hji
          rw [g3 j (by omega), f2]
        · rw [g4 j (by omega) (by omega) (by rw [f3 j hji]; exact hjm), f3 j hji]
      · intro j hj1 hj2 hjm
        have hji : j ≠ iStart := fun hx => hjm (hx ▸ hmi)
        rw [g5 j (by omega) (by omega) (by rw [f3 j hji]; exact hjm), f3 j hji]
      · rw [g6, f8, List.append_assoc]
        congr 1
        rw [flushWrites_head_match hmi]
        congr 1
        refine flushWrites_congr ?_
        intro j hj1 hj2
        exact ⟨f3 j (by omega), poolOf_congr f5 j⟩
      · rw [g7, f5]
    · have hskip := @flushFrame_step_skip s fid iStart hmi
      have hstep : flushIter fid iStart (fuel2 + 1) s = flushIter fid (iStart + 1) fuel2 s := by
        rw [flushIter_succ_none (by rw [hskip]), hskip]
      obtain ⟨g1, g2, g3, g4, g5, g6, g7⟩ := @ih (iStart + 1) fuel2
        s hs (by omega)
        (by rw [harith]; exact hm)
        (by rw [harith]; exact hbad)
        (by
          intro j hj1 hj2 hjm
          exact hfirst j (by omega) (by omega) hjm)
      rw [hstep]
      rw [harith] at g1 g2
      refine ⟨g1, g2, ?_, ?_, ?_, ?_, g7⟩
      · intro j hj
        exact g3 j (by omega)
      · intro j hj1 hj2 hjm
        by_cases hji : j = iStart
        · subst hji
          exact absurd hjm hmi
        · exact g4 j (by omega) (by omega) hjm
      · intro j hj1 hj2 hjm
        by_cases hji : j = iStart
        · subst hji
          exact g3 j (by omega)
        · exact g5 j (by omega) (by omega) hjm
      · rw [g6, flushWrites_head_skip hmi]

/-- With every frame valid and its reference bit set, one scan iteration of
allocBuf changes nothing but the clock hand — the source's line 61
(`refbit == false`) is a comparison, not an assignment — and never exits, so
the loop runs forever: the scan yields no outcome for any fuel. -/
theorem allocScan_allRefbit_none : ∀ {fuel : Nat} {s : BufState} {count : Nat},
    0 < s.numBufs →
    (∀ i, i < s.numBufs → (descOf s i).valid = true ∧ (descOf s i).refbit = true) →
    count ≤ s.numBufs → allocScan fuel count s = none := by
  intro fuel
  induction fuel with
  | zero =>
    intro s count _ _ _
    rfl
  | succ fuel ih =>
    intro s count hN hall hc
    rw [allocScan, if_pos hc]
    have hclk : (advanceClock s).clockHand < s.numBufs := Nat.mod_lt _ hN
    obtain ⟨hv, hr⟩ := hall (advanceClock s).clockHand hclk
    rw [if_neg (show ¬¬((descOf (advanceClock s) (advanceClock s).clockHand).valid = true) by
      show ¬¬((descOf s (advanceClock s).clockHand).valid = true)
      rw [hv]
      simp)]
    rw [if_pos (show (descOf (advanceClock s) (advanceClock s).clockHand).refbit = true from hr)]
    exact ih (s := advanceClock s) hN hall hc

/-- C2 (code bug): the claim promises that every allocBuf call terminates
within 2N hand advances whenever some frame is empty or has pin count 0, the
inspected reference bits being cleared along the way.  In `stHangFree` both
frames have pinCnt 0 (evictable) but refbit true, and the call never returns,
for any fuel: line 61 of buffer.cpp reads `refbit == false`, a comparison with
no effect, so no reference bit is ever cleared and the clock scan cycles
forever instead of terminating. -/
theorem allocBuf_diverges_despite_free_frames (fuel : Nat) :
    allocBuf fuel stHangFree = none := by
  unfold allocBuf
  rw [allocScan_allRefbit_none (by decide) (by decide) (by decide)]

/-- C3 (code bug): the claim says allocBuf signals BufferExceeded exactly when
every frame has pinCnt > 0.  In `stHangPinned` every frame is pinned, yet for
any fuel the call neither returns nor raises anything: the no-op reference-bit
clear of line 61 keeps every refbit true, the scan never reaches the counting
branch, and BufferExceeded is never thrown.  (Additionally, allocPage at lines
183-185 catches every BadgerDbException and merely logs it, so even a raised
BufferExceeded would not surface to allocPage's caller.) -/
theorem allocBuf_never_signals_bufferExceeded (fuel : Nat) :
    allocBuf fuel stHangPinned = none := by
  unfold allocBuf
  rw [allocScan_allRefbit_none (by decide) (by decide) (by decide)]

/-- C1 (code bug): readPage never executes `page = &bufPool[frameNo]`, so the
caller's pointer is left untouched: with an external incoming pointer, both
the miss branch (fresh manager) and the subsequent hit branch return the
external handle, not a handle into one of the pool frames — the claim's
guarantee about the returned handle fails.  The pin-count half does hold here:
the miss sets pinCnt to 1. -/
theorem readPage_returns_external_handle :
    (readPage 5 (initState 1 fsDemo) 1 5 Handle.external).map (fun r => r.2.1)
      = some Handle.external ∧
    ((readPage 5 (initState 1 fsDemo) 1 5 Handle.external).bind
        (fun r => readPage 5 r.1 1 5 Handle.external)).map (fun r => r.2.1)
      = some Handle.external ∧
    (readPage 5 (initState 1 fsDemo) 1 5 Handle.external).map
        (fun r => (descOf r.1 0).pinCnt) = some 1 :=
  ⟨rfl, rfl, rfl⟩

/-- C4 (code bug): allocPage never assigns the out-parameter pageNo from the
page that File::allocatePage returns (and never calls its page_number
accessor): with the collaborator poised to assign page 7 and the caller's
incoming pageNo holding 42, the call returns 42, the event trace shows the
allocation of page 7, and the index maps (file 1, 42) — not (file 1, 7) — to
the chosen frame. -/
theorem allocPage_stale_pageNo :
    (allocPage 5 (initState 1 fsDemo) 1 42 Handle.external).map (fun r => r.2.1)
      = some 42 ∧
    (allocPage 5 (initState 1 fsDemo) 1 42 Handle.external).map (fun r => r.1.fs.events)
      = some [Ev.allocPageEv 1 7] ∧
    (allocPage 5 (initState 1 fsDemo) 1 42 Handle.external).map (fun r => r.1.hashTable)
      = some [((1, 42), 0)] ∧
    (42 : Nat) ≠ fsDemo.nextPage 1 :=
  ⟨rfl, rfl, rfl, by decide⟩

/-- C5: unPinPage is a no-op (soft warning only, state and result unchanged)
when the page is absent from the index; it signals PageNotPinned with the
state unchanged when the frame's pin count is zero; otherwise it returns
normally, decrements the pin count by exactly one, and the dirty flag is
sticky: the new dirty bit is the old one OR-ed with the argument, so neither a
true nor a false argument ever clears an already-set flag. -/
theorem unPinPage_spec (s : BufState) (fid pno : Nat) (dr : Bool) :
    (lookupKey s.hashTable (fid, pno) = none → unPinPage s fid pno dr = (s, none)) ∧
    (∀ f, lookupKey s.hashTable (fid, pno) = some f → (descOf s f).pinCnt = 0 →
      unPinPage s fid pno dr = (s, some BufErr.pageNotPinned)) ∧
    (∀ f, lookupKey s.hashTable (fid, pno) = some f → 0 < (descOf s f).pinCnt →
      (unPinPage s fid pno dr).2 = none ∧
      (descOf (unPinPage s fid pno dr).1 f).pinCnt = (descOf s f).pinCnt - 1 ∧
      (descOf (unPinPage s fid pno dr).1 f).dirty = ((descOf s f).dirty || dr)) := by
  refine ⟨?_, ?_, ?_⟩
  · intro hlk
    unfold unPinPage
    rw [hlk]
  · intro f hlk hp
    unfold unPinPage
    rw [hlk]
    simp only []
    rw [if_pos hp]
  · intro f hlk hp
    have hlen : f < s.bufDescTable.length := by
      by_contra hge
      have hdef : descOf s f = default := getD_eq_default_of_le (by omega)
      rw [hdef] at hp
      simp [default] at hp
    have hpne : ¬(descOf s f).pinCnt = 0 := by omega
    unfold unPinPage
    rw [hlk]
    simp only []
    rw [if_neg hpne]
    refine ⟨rfl, ?_, ?_⟩
    · show ((s.bufDescTable.set f _).getD f default).pinCnt = _
      rw [getD_set_self hlen]
    · show ((s.bufDescTable.set f _).getD f default).dirty = _
      rw [getD_set_self hlen]

theorem unPinPage_spec_witness :
    unPinPage (initState 1 fsDemo) 1 5 true = (initState 1 fsDemo, none) ∧
    unPinPage stNotPinned 1 5 true = (stNotPinned, some BufErr.pageNotPinned) ∧
    ((unPinPage stPinned 1 5 false).2 = none ∧
      (descOf (unPinPage stPinned 1 5 false).1 0).pinCnt = (descOf stPinned 0).pinCnt - 1 ∧
      (descOf (unPinPage stPinned 1 5 false).1 0).dirty = ((descOf stPinned 0).dirty || false)) :=
  ⟨(unPinPage_spec (initState 1 fsDemo) 1 5 true).1 rfl,
   (unPinPage_spec stNotPinned 1 5 true).2.1 0 rfl rfl,
   (unPinPage_spec stPinned 1 5 false).2.2 0 rfl (by decide)⟩

/-- C10: when the page is resident and its frame pinned, unPinPage changes
only the pinCnt and dirty fields of the single frame the index maps
(file, pageNo) to: the hash index, the page buffers, the clock hand, the
file-system side, every other descriptor, and the frame's own frameNo, fileId,
pageNo, refbit and valid fields are unchanged; pinCnt drops by one and dirty
becomes old-dirty OR the argument. -/
theorem unPinPage_frame_effect (s : BufState) (fid pno : Nat) (dr : Bool) (f : Nat)
    (hlk : lookupKey s.hashTable (fid, pno) = some f) (hp : 0 < (descOf s f).pinCnt) :
    (unPinPage s fid pno dr).1.numBufs = s.numBufs ∧
    (unPinPage s fid pno dr).1.hashTable = s.hashTable ∧
    (unPinPage s fid pno dr).1.bufPool = s.bufPool ∧
    (unPinPage s fid pno dr).1.clockHand = s.clockHand ∧
    (unPinPage s fid pno dr).1.fs = s.fs ∧
    (∀ g, g ≠ f → descOf (unPinPage s fid pno dr).1 g = descOf s g) ∧
    (descOf (unPinPage s fid pno dr).1 f).frameNo = (descOf s f).frameNo ∧
    (descOf (unPinPage s fid pno dr).1 f).fileId = (descOf s f).fileId ∧
    (descOf (unPinPage s fid pno dr).1 f).pageNo = (descOf s f).pageNo ∧
    (descOf (unPinPage s fid pno dr).1 f).refbit = (descOf s f).refbit ∧
    (descOf (unPinPage s fid pno dr).1 f).valid = (descOf s f).valid ∧
    (descOf (unPinPage s fid pno dr).1 f).pinCnt = (descOf s f).pinCnt - 1 ∧
    (descOf (unPinPage s fid pno dr).1 f).dirty = ((descOf s f).dirty || dr) := by
  have hlen : f < s.bufDescTable.length := by
    by_contra hge
    have hdef : descOf s f = default := getD_eq_default_of_le (by omega)
    rw [hdef] at hp
    simp [default] at hp
  have hpne : ¬(descOf s f).pinCnt = 0 := by omega
  have hres : unPinPage s fid pno dr = (
      { s with
          bufDescTable := s.bufDescTable.set f
            { descOf s f with
                pinCnt := (descOf s f).pinCnt - 1
                dirty := (descOf s f).dirty || dr } },
      none) := by
    unfold unPinPage
    rw [hlk]
    simp only []
    rw [if_neg hpne]
  rw [hres]
  refine ⟨rfl, rfl, rfl, rfl, rfl, ?_, ?_, ?_, ?_, ?_, ?_, ?_, ?_⟩
  · intro g hg
    show (s.bufDescTable.set f _).getD g default = descOf s g
    rw [getD_set_ne (fun hx => hg hx.symm)]
    rfl
  · show ((s.bufDescTable.set f _).getD f default).frameNo = _
    rw [getD_set_self hlen]
  · show ((s.bufDescTable.set f _).getD f default).fileId = _
    rw [getD_set_self hlen]
  · show ((s.bufDescTable.set f _).getD f default).pageNo = _
    rw [getD_set_self hlen]
  · show ((s.bufDescTable.set f _).getD f default).refbit = _
    rw [getD_set_self hlen]
  · show ((s.bufDescTable.set f _).getD f default).valid = _
    rw [getD_set_self hlen]
  · show ((s.bufDescTable.set f _).getD f default).pinCnt = _
    rw [getD_set_self hlen]
  · show ((s.bufDescTable.set f _).getD f default).dirty = _
    rw [getD_set_self hlen]

theorem unPinPage_frame_effect_witness :
    (unPinPage stPinned 1 5 true).1.hashTable = stPinned.hashTable ∧
    (unPinPage stPinned 1 5 true).1.bufPool = stPinned.bufPool ∧
    (unPinPage stPinned 1 5 true).1.clockHand = stPinned.clockHand ∧
    (unPinPage stPinned 1 5 true).1.fs = stPinned.fs ∧
    descOf (unPinPage stPinned 1 5 true).1 1 = descOf stPinned 1 ∧
    (descOf (unPinPage stPinned 1 5 true).1 0).refbit = (descOf stPinned 0).refbit ∧
    (descOf (unPinPage stPinned 1 5 true).1 0).valid = (descOf stPinned 0).valid ∧
    (descOf (unPinPage stPinned 1 5 true).1 0).pinCnt = (descOf stPinned 0).pinCnt - 1 ∧
    (descOf (unPinPage stPinned 1 5 true).1 0).dirty = ((descOf stPinned 0).dirty || true) := by
  have h := unPinPage_frame_effect stPinned 1 5 true 0 rfl (by decide)
  exact ⟨h.2.1, h.2.2.1, h.2.2.2.1, h.2.2.2.2.1,
    h.2.2.2.2.2.1 1 (by decide), h.2.2.2.2.2.2.2.2.2.1,
    h.2.2.2.2.2.2.2.2.2.2.1, h.2.2.2.2.2.2.2.2.2.2.2.1,
    h.2.2.2.2.2.2.2.2.2.2.2.2⟩

theorem lookupKey_removeKey_self {ht : List ((Nat × Nat) × Nat)} {k : Nat × Nat}
    (hn : keysNodup ht) : lookupKey (removeKey ht k) k = none := by
  rw [lookupKey_none_iff]
  intro e he
  exact ((mem_removeKey hn).mp he).2

/-- C8: under the core invariants, disposePage is idempotent.  Both calls
return normally (the operation is total here: a missing index entry is caught
and silently tolerated).  After the first call no index entry for
(file, pageNo) remains and no valid frame holds that page; the second call
changes neither the descriptors, the index, the pool nor the clock hand, and
each of the two calls invokes File::deletePage once, as witnessed by the event
trace. -/
theorem disposePage_idempotent (s : BufState) (fid pno : Nat) (hs : Inv s) :
    lookupKey (disposePage s fid pno).hashTable (fid, pno) = none ∧
    (∀ i, (descOf (disposePage s fid pno) i).valid = true →
      ¬((descOf (disposePage s fid pno) i).fileId = some fid ∧
        (descOf (disposePage s fid pno) i).pageNo = pno)) ∧
    (disposePage (disposePage s fid pno) fid pno).bufDescTable
      = (disposePage s fid pno).bufDescTable ∧
    (disposePage (disposePage s fid pno) fid pno).hashTable
      = (disposePage s fid pno).hashTable ∧
    (disposePage (disposePage s fid pno) fid pno).bufPool
      = (disposePage s fid pno).bufPool ∧
    (disposePage (disposePage s fid pno) fid pno).clockHand
      = (disposePage s fid pno).clockHand ∧
    (disposePage s fid pno).fs.events = s.fs.events ++ [Ev.deletePageEv fid pno] ∧
    (disposePage (disposePage s fid pno) fid pno).fs.events
      = s.fs.events ++ [Ev.deletePageEv fid pno, Ev.deletePageEv fid pno] := by
  have hinv1 : Inv (disposePage s fid pno) := disposePage_inv hs
  have hafter : lookupKey (disposePage s fid pno).hashTable (fid, pno) = none := by
    unfold disposePage
    cases hlk : lookupKey s.hashTable (fid, pno) with
    | none =>
      simp only []
      exact hlk
    | some f =>
      simp only []
      show lookupKey (removeKey s.hashTable (fid, pno)) (fid, pno) = none
      exact lookupKey_removeKey_self hs.2.2.2.2.2.2.2.1
  have hnoframe : ∀ i, (descOf (disposePage s fid pno) i).valid = true →
      ¬((descOf (disposePage s fid pno) i).fileId = some fid ∧
        (descOf (disposePage s fid pno) i).pageNo = pno) := by
    intro i hv ⟨hfi, hpg⟩
    have hilt : i < (disposePage s fid pno).numBufs := valid_lt hinv1 hv
    obtain ⟨-, hment⟩ := hinv1.2.2.2.2.2.1 i hilt hv
    have hkeq : ((descOf (disposePage s fid pno) i).fileId.getD 0,
        (descOf (disposePage s fid pno) i).pageNo) = (fid, pno) := by
      rw [hfi, hpg]
      rfl
    rw [hkeq] at hment
    have := mem_lookupKey_of_nodup hinv1.2.2.2.2.2.2.2.1 hment
    rw [hafter] at this
    cases this
  have hsecond : disposePage (disposePage s fid pno) fid pno
      = { disposePage s fid pno with
            fs := fsDelete (disposePage s fid pno).fs fid pno } := by
    set X := disposePage s fid pno with hX
    unfold disposePage
    rw [hafter]
  have hev1 : (disposePage s fid pno).fs.events
      = s.fs.events ++ [Ev.deletePageEv fid pno] := by
    unfold disposePage
    cases hlk : lookupKey s.hashTable (fid, pno) with
    | none => rfl
    | some f => rfl
  refine ⟨hafter, hnoframe, ?_, ?_, ?_, ?_, hev1, ?_⟩
  · rw [hsecond]
  · rw [hsecond]
  · rw [hsecond]
  · rw [hsecond]
  · rw [hsecond]
    show (disposePage s fid pno).fs.events ++ [Ev.deletePageEv fid pno] = _
    rw [hev1, List.append_assoc]
    rfl

theorem disposePage_idempotent_witness :
    lookupKey (disposePage stNotPinned 1 5).hashTable (1, 5) = none ∧
    ((descOf (disposePage stNotPinned 1 5) 0).valid = true →
      ¬((descOf (disposePage stNotPinned 1 5) 0).fileId = some 1 ∧
        (descOf (disposePage stNotPinned 1 5) 0).pageNo = 5)) ∧
    (disposePage (disposePage stNotPinned 1 5) 1 5).hashTable
      = (disposePage stNotPinned 1 5).hashTable ∧
    (disposePage stNotPinned 1 5).fs.events
      = stNotPinned.fs.events ++ [Ev.deletePageEv 1 5] ∧
    (disposePage (disposePage stNotPinned 1 5) 1 5).fs.events
      = stNotPinned.fs.events ++ [Ev.deletePageEv 1 5, Ev.deletePageEv 1 5] := by
  have h := disposePage_idempotent stNotPinned 1 5 (by decide)
  exact ⟨h.1, h.2.1 0, h.2.2.2.1, h.2.2.2.2.2.2.1, h.2.2.2.2.2.2.2⟩

/-- C9: for every sequence of public operations (readPage, allocPage,
unPinPage, flushFile, disposePage) run from a freshly constructed manager with
at least one frame, every quiescent state (every terminating prefix) satisfies
the core invariants of spec section 3: `Inv` asserts invariants 1-5 (every
valid frame is indexed under its own (file, pageNo), index entries only target
valid frames holding exactly that key, pin and dirty imply valid, and the
clock hand is in range); the two further conjuncts are invariant 6 (a resident
page occupies exactly one frame) and the uniqueness half of invariant 1 (no
two entries map to one frame). -/
theorem invariants_preserved {n : Nat} (hn : 0 < n) (fs0 : FileSys) (fuel : Nat)
    (ops : List Op) {s' : BufState}
    (h : runOps fuel ops (initState n fs0) = some s') :
    Inv s' ∧
    (∀ i j, i < s'.numBufs → j < s'.numBufs →
      (descOf s' i).valid = true → (descOf s' j).valid = true →
      (descOf s' i).fileId = (descOf s' j).fileId →
      (descOf s' i).pageNo = (descOf s' j).pageNo → i = j) ∧
    (∀ e1 e2, e1 ∈ s'.hashTable → e2 ∈ s'.hashTable → e1.2 = e2.2 → e1 = e2) := by
  have hinv := runOps_inv (initState_inv hn fs0) h
  exact ⟨hinv, inv_resident_unique hinv, inv_entry_unique hinv⟩

theorem invariants_preserved_witness :
    Inv ((runOps 10 opsDemo (initState 2 fsDemo)).getD (initState 2 fsDemo)) := by
  have h := @invariants_preserved 2 (by decide) fsDemo 10 opsDemo
    ((runOps 10 opsDemo (initState 2 fsDemo)).getD (initState 2 fsDemo)) (by rfl)
  exact h.1

/-- C6: under the core invariants, when every frame of the file is valid and
unpinned, flushFile raises nothing and, processing frames in increasing
FrameId order, writes a frame's pool page back exactly when its dirty bit is
set (the events gain `flushWrites`, the writePage calls of the dirty matching
frames in increasing frame order; clearing of the dirty bit is subsumed by the
clearing of the descriptor), removes each matching frame's index mapping and
clears its descriptor, and leaves the frames and index entries of other files
and all page buffers untouched. -/
theorem flushFile_success_spec (s : BufState) (fid : Nat) (hs : Inv s)
    (hok : ∀ j, j < s.numBufs → (descOf s j).fileId = some fid →
      (descOf s j).valid = true ∧ (descOf s j).pinCnt = 0) :
    (flushFile s fid).2 = none ∧
    (flushFile s fid).1.bufPool = s.bufPool ∧
    (∀ j, j < s.numBufs → (descOf s j).fileId = some fid →
      descOf (flushFile s fid).1 j = clearDesc (descOf s j)) ∧
    (∀ j, ¬(descOf s j).fileId = some fid →
      descOf (flushFile s fid).1 j = descOf s j) ∧
    (∀ j, j < s.numBufs → (descOf s j).fileId = some fid →
      lookupKey (flushFile s fid).1.hashTable (fid, (descOf s j).pageNo) = none) ∧
    (∀ e, e ∈ s.hashTable → e.1.1 ≠ fid → e ∈ (flushFile s fid).1.hashTable) ∧
    (flushFile s fid).1.fs.events = s.fs.events ++ flushWrites fid s 0 s.numBufs := by
  obtain ⟨g1, g2, g3, g4, g5, g6, g7, g8, g9⟩ := @flushIter_success fid
    s.numBufs 0 s hs
    (fun j hj1 hj2 hjm => hok j (by omega) hjm)
  refine ⟨g1, g3, ?_, ?_, ?_, ?_, g8⟩
  · intro j hj hjm
    exact g5 j (by omega) (by omega) hjm
  · intro j hjm
    exact g6 j (Or.inr (Or.inr hjm))
  · intro j hj hjm
    rw [lookupKey_none_iff]
    intro e he
    exact ((g7 e).mp he).2 j (by omega) (by omega) hjm
  · intro e he hfid
    refine (g7 e).mpr ⟨he, ?_⟩
    intro j hj1 hj2 hjm hkey
    apply hfid
    rw [hkey]

theorem flushFile_success_witness :
    (flushFile stFlushDemo 1).2 = none ∧
    (flushFile stFlushDemo 1).1.bufPool = stFlushDemo.bufPool ∧
    descOf (flushFile stFlushDemo 1).1 0 = clearDesc (descOf stFlushDemo 0) ∧
    descOf (flushFile stFlushDemo 1).1 1 = descOf stFlushDemo 1 ∧
    lookupKey (flushFile stFlushDemo 1).1.hashTable (1, 5) = none ∧
    ((2, 3), 1) ∈ (flushFile stFlushDemo 1).1.hashTable ∧
    (flushFile stFlushDemo 1).1.fs.events
      = stFlushDemo.fs.events ++ flushWrites 1 stFlushDemo 0 2 := by
  have h := flushFile_success_spec stFlushDemo 1 (by decide) (by decide)
  refine ⟨h.1, h.2.1, h.2.2.1 0 (by decide) (by decide), h.2.2.2.1 1 (by decide),
    ?_, h.2.2.2.2.2.1 ((2, 3), 1) (by decide) (by decide), h.2.2.2.2.2.2⟩
  exact h.2.2.2.2.1 0 (by decide) (by decide)

/-- C7: under the core invariants, when frame `i` is the first frame of the
file at which the scan fails — BadBuffer when the matching frame is invalid
(which the source checks before the pin count), PagePinned when it is valid
but pinned — the exception terminates the scan: matching frames before `i`
are flushed (their write-backs appear in the events) and cleared, frames
before `i` of other files are untouched, and every frame at or after `i`,
including the failing frame itself, is untouched; the operation is therefore
not atomic across frames. -/
theorem flushFile_failure_spec (s : BufState) (fid : Nat) (hs : Inv s) (i : Nat)
    (hi : i < s.numBufs) (hm : (descOf s i).fileId = some fid)
    (hbad : (descOf s i).valid = false ∨ 0 < (descOf s i).pinCnt)
    (hfirst : ∀ j, j < i → (descOf s j).fileId = some fid →
      (descOf s j).valid = true ∧ (descOf s j).pinCnt = 0) :
    ((descOf s i).valid = false → (flushFile s fid).2 = some (BufErr.badBuffer i)) ∧
    ((descOf s i).valid = true → (flushFile s fid).2 = some BufErr.pagePinned) ∧
    (∀ j, i ≤ j → descOf (flushFile s fid).1 j = descOf s j) ∧
    (∀ j, j < i → (descOf s j).fileId = some fid →
      descOf (flushFile s fid).1 j = clearDesc (descOf s j)) ∧
    (∀ j, j < i → ¬(descOf s j).fileId = some fid →
      descOf (flushFile s fid).1 j = descOf s j) ∧
    (flushFile s fid).1.fs.events = s.fs.events ++ flushWrites fid s 0 i ∧
    (flushFile s fid).1.bufPool = s.bufPool := by
  obtain ⟨g1, g2, g3, g4, g5, g6, g7⟩ := @flushIter_failure fid i
    0 s.numBufs s hs (by omega)
    (by rw [Nat.zero_add]; exact hm)
    (by rw [Nat.zero_add]; exact hbad)
    (fun j hj1 hj2 hjm => hfirst j (by omega) hjm)
  rw [Nat.zero_add] at g1 g2
  refine ⟨?_, ?_, g2, ?_, ?_, g6, g7⟩
  · intro hv
    rw [if_pos hv] at g1
    exact g1
  · intro hv
    rw [if_neg (by rw [hv]; simp)] at g1
    exact g1
  · intro j hj hjm
    exact g4 j (by omega) (by omega) hjm
  · intro j hj hjm
    exact g5 j (by omega) (by omega) hjm

theorem flushFile_failure_witness :
    (flushFile stFlushPinnedDemo 1).2 = some BufErr.pagePinned ∧
    descOf (flushFile stFlushPinnedDemo 1).1 1 = descOf stFlushPinnedDemo 1 ∧
    descOf (flushFile stFlushPinnedDemo 1).1 0 = clearDesc (descOf stFlushPinnedDemo 0) ∧
    (flushFile stFlushPinnedDemo 1).1.fs.events
      = stFlushPinnedDemo.fs.events ++ flushWrites 1 stFlushPinnedDemo 0 1 ∧
    (flushFile stFlushPinnedDemo 1).1.bufPool = stFlushPinnedDemo.bufPool := by
  have h := flushFile_failure_spec stFlushPinnedDemo 1 (by decide) 1 (by decide)
    (by decide) (Or.inr (by decide)) (by decide)
  exact ⟨h.2.1 (by decide), h.2.2.1 1 (by decide), h.2.2.2.1 0 (by decide) (by decide),
    h.2.2.2.2.2.1, h.2.2.2.2.2.2⟩

end BufferPool
